import Mathlib

/-!
Verification of the Mehl interpreter (compiler + VM) against its
natural-language specification.  The Rust sources are shallowly embedded:
pure functions become Lean functions, statefulness becomes explicit state
passing, Rust panics become `Option`/`none`, and machine integers are
modelled by `Nat`/`Int` (ids are `u32` and addresses `u64` in the source;
the claims under study never approach the wrap-around boundary, which is
noted wherever it is abstracted away).
-/

namespace Mehl

/-! ## HIR data model (src/interpreter/src/compiler/hir.rs)

The repository is mid-refactor and contains two incompatible primitive-kind
enums: `optimize_hir.rs`/`lir.rs` use an enum `Primitive` with variants
`Magic`, `Add`, `Print`, while `primitives.rs` declares `PrimitiveKind`
with seven variants.  The HIR statements here carry the former (the one the
optimizer, the only HIR consumer of the kind, pattern-matches on); the VM
section below uses the latter.  Rust declares `type Id = u32`; ids are
written `Nat` here (see `Code.replaceRange` for where the wrap would
matter). -/

/-- Enum `Primitive` as used by optimize_hir.rs and lir.rs. -/
inductive Primitive where
  | magic
  | add
  | print
deriving DecidableEq, Repr

mutual
/-- HIR statement (hir.rs `Statement`).  Rust's `HashMap<Nat, Nat>` for map
literals is modelled as an association list in insertion order. -/
inductive Statement : Type where
  | int (n : Int)
  | string (s : String)
  | symbol (s : String)
  | map (entries : List (Nat × Nat))
  | list (items : List Nat)
  | code (c : Code)
  | call (f : Nat) (arg : Nat)
  | primitive (kind : Primitive) (arg : Nat)
inductive Code : Type where
  | mk (in_ : Nat) (out : Nat) (statements : List Statement)
end

/-- Accessor for the `in_` field of hir.rs `Code`. -/
def Code.in_ : Code → Nat
  | .mk i _ _ => i

/-- Accessor for the `out` field of hir.rs `Code`. -/
def Code.out : Code → Nat
  | .mk _ o _ => o

/-- Accessor for the `statements` field of hir.rs `Code`. -/
def Code.statements : Code → List Statement
  | .mk _ _ s => s

/-- Rust `Code::next_id`: `in_ + statements.len() + 1`. -/
def Code.nextId (c : Code) : Nat := c.in_ + c.statements.length + 1

@[simp] theorem Code.in_mk (i o : Nat) (s : List Statement) : (Code.mk i o s).in_ = i := rfl
@[simp] theorem Code.out_mk (i o : Nat) (s : List Statement) : (Code.mk i o s).out = o := rfl
@[simp] theorem Code.statements_mk (i o : Nat) (s : List Statement) :
    (Code.mk i o s).statements = s := rfl

/-! ### Nat rewriting

Rust `Statement::replace_ids` takes a total function `Nat -> Nat`; inside
`Code::replace_range` the function used is one that panics on an in-range
id that has no replacement.  The panic is modelled by giving the rewrite an
`Nat -> Option Nat` transform and propagating `none`. -/

/-- Option-valued map over a list of ids (used for list literals). -/
def mapIds? (t : Nat → Option Nat) : List Nat → Option (List Nat)
  | [] => some []
  | x :: xs => do
    let y ← t x
    let ys ← mapIds? t xs
    some (y :: ys)

/-- Option-valued map over map-literal entries (key, then value, as in
the Rust loop over the hash map). -/
def mapPairs? (t : Nat → Option Nat) : List (Nat × Nat) → Option (List (Nat × Nat))
  | [] => some []
  | e :: es => do
    let k ← t e.1
    let v ← t e.2
    let rest ← mapPairs? t es
    some ((k, v) :: rest)

mutual
/-- Rust `Statement::replace_ids`, with the panic of the transform made
explicit as `Option`.  For nested `Code` it rewrites `in_`, `out` and then
every contained statement, exactly as the Rust match arm does. -/
def Statement.replaceIds? (t : Nat → Option Nat) : Statement → Option Statement
  | .int n => some (.int n)
  | .string s => some (.string s)
  | .symbol s => some (.symbol s)
  | .map es => do
    let es' ← mapPairs? t es
    some (.map es')
  | .list ids => do
    let ids' ← mapIds? t ids
    some (.list ids')
  | .code c => do
    let c' ← Code.replaceIds? t c
    some (.code c')
  | .call f a => do
    let f' ← t f
    let a' ← t a
    some (.call f' a')
  | .primitive k a => do
    let a' ← t a
    some (.primitive k a')
/-- Nested-code part of `Statement::replace_ids`: transform `in_`, `out`,
then the statements. -/
def Code.replaceIds? (t : Nat → Option Nat) : Code → Option Code
  | .mk i o stmts => do
    let i' ← t i
    let o' ← t o
    let stmts' ← replaceIdsList? t stmts
    some (.mk i' o' stmts')
/-- Option-valued map of `Statement.replaceIds?` over a statement list. -/
def replaceIdsList? (t : Nat → Option Nat) : List Statement → Option (List Statement)
  | [] => some []
  | s :: rest => do
    let s' ← Statement.replaceIds? t s
    let rest' ← replaceIdsList? t rest
    some (s' :: rest')
end

/-- First-match lookup in an association list, modelling
`HashMap::get` for the `reference_replacements` map. -/
def lookupId (m : List (Nat × Nat)) (r : Nat) : Option Nat :=
  (m.find? (fun e => e.1 == r)).map (·.2)

/-- The transform `t` built inside `Code::replace_range`: ids before the
range unchanged, ids at or past the range end shifted by
`replacement.len() - length`, ids inside the range looked up in the
replacement map (a missing entry is the `expect` panic, here `none`).
The Rust shift computes `(id as isize + shift) as u32`; since
`id ≥ start + length`, the sum is non-negative, and the `u32` wrap-around
(only reachable for blocks near `2^32` statements) is not modelled. -/
def rangeTransform (start : Nat) (length : Nat) (replacementLength : Nat)
    (remap : List (Nat × Nat)) : Nat → Option Nat := fun id =>
  if id < start then some id
  else if start + length ≤ id then some (id + replacementLength - length)
  else lookupId remap id

/-- Rust `Code::replace_range` (hir.rs:215-273).  The Rust function
panics when the range does not lie within the statement list (the index
arithmetic underflows or the slices go out of bounds) and when an
in-range id is referenced without a replacement; both panics are `none`
here.  On success the result keeps the statements before the range,
substitutes the replacement, rewrites every later statement with
`rangeTransform`, and applies the same transform to `in_` and `out`. -/
def Code.replaceRange (c : Code) (start : Nat) (length : Nat)
    (replacement : List Statement) (remap : List (Nat × Nat)) : Option Code :=
  if c.in_ + 1 ≤ start ∧ start + length ≤ c.nextId then
    let startIndex := start - c.in_ - 1
    let endIndex := start + length - c.in_ - 1
    let t := rangeTransform start length replacement.length remap
    do
      let suffix ← replaceIdsList? t (c.statements.drop endIndex)
      let newIn ← t c.in_
      let newOut ← t c.out
      some (.mk newIn newOut (c.statements.take startIndex ++ replacement ++ suffix))
  else none

/-! ### Well-formedness of a code block

The invariants of spec §3: every reference points to an id strictly less
than the referencing statement's id that is in scope (the block or an
ancestor), and `out` names either `in` or a statement of the block
(`in` is not a statement id by construction here, since statement ids are
the positions `in_ + 1, in_ + 2, ...`).  Blocks are numbered the way
ast_to_hir.rs numbers them: a nested block's `in_` equals the id of the
`Code` statement holding it, so the ids of the region of a top block `c`
checked from a statement id `j` are contiguous; an id `r` is resolvable
from `j` exactly when `r < j` and (`r` is an ambient-scope id or
`base ≤ r`, where `base` is the top block's `in_`). -/

/-- Validity of one id reference appearing at statement id `j` inside the
region of a block whose `in_` is `base`, with ambient scope `scope`. -/
def refOk (scope : List Nat) (base : Nat) (j : Nat) (r : Nat) : Bool :=
  decide (r < j) && (scope.contains r || decide (base ≤ r))

mutual
/-- Well-formedness of a block: the `out` condition plus well-formedness
of every statement at its id.  `base` is the `in_` of the outermost block
this check started from; `scope` are the ids visible from outside it. -/
def Code.wfAux (scope : List Nat) (base : Nat) : Code → Bool
  | .mk i o stmts =>
    (o == i || (decide (i < o) && decide (o < i + stmts.length + 1))) &&
    wfStmts scope base (i + 1) stmts
/-- Well-formedness of the statements of a block starting at id `j`. -/
def wfStmts (scope : List Nat) (base : Nat) (j : Nat) : List Statement → Bool
  | [] => true
  | s :: rest => Statement.wf scope base j s && wfStmts scope base (j + 1) rest
/-- Well-formedness of one statement at id `j`: all its references are
valid, and a nested block has `in_ = j` (the preorder numbering that
ast_to_hir.rs establishes and every rewrite preserves) and is itself
well-formed. -/
def Statement.wf (scope : List Nat) (base : Nat) (j : Nat) : Statement → Bool
  | .int _ => true
  | .string _ => true
  | .symbol _ => true
  | .map es => es.all (fun e => refOk scope base j e.1 && refOk scope base j e.2)
  | .list ids => ids.all (refOk scope base j)
  | .code c => c.in_ == j && Code.wfAux scope base c
  | .call f a => refOk scope base j f && refOk scope base j a
  | .primitive _ a => refOk scope base j a
end

/-- Well-formedness of a block in ambient scope `scope`. -/
def Code.wf (scope : List Nat) (c : Code) : Bool := Code.wfAux scope c.in_ c


/-! ### Properties of the range transform -/

theorem rangeTransform_lt (start length replLen : Nat) (remap : List (Nat × Nat))
    (r : Nat) (h : r < start) :
    rangeTransform start length replLen remap r = some r := by
  simp [rangeTransform, h]

theorem rangeTransform_ge (start length replLen : Nat) (remap : List (Nat × Nat))
    (r : Nat) (h : start + length ≤ r) :
    rangeTransform start length replLen remap r = some (r + replLen - length) := by
  have h1 : ¬ r < start := by omega
  simp [rangeTransform, h1, h]

theorem rangeTransform_mem (start length replLen : Nat) (remap : List (Nat × Nat))
    (r : Nat) (h1 : start ≤ r) (h2 : r < start + length) :
    rangeTransform start length replLen remap r = lookupId remap r := by
  have h3 : ¬ r < start := by omega
  have h4 : ¬ start + length ≤ r := by omega
  simp [rangeTransform, h3, h4]

/-- Validity of the reference-replacement map for the preservation proof:
every replacement target lies before the end of the replacement range and
is an id in scope (ambient scope or at or after the block's `in_`). -/
def remapValid (scope : List Nat) (base start replLen : Nat)
    (remap : List (Nat × Nat)) : Prop :=
  ∀ e ∈ remap, e.2 < start + replLen ∧ (scope.contains e.2 = true ∨ base ≤ e.2)

theorem lookupId_mem (m : List (Nat × Nat)) (r v : Nat)
    (h : lookupId m r = some v) : ∃ e ∈ m, e.2 = v := by
  unfold lookupId at h
  simp only [Option.map_eq_some'] at h
  obtain ⟨e, hfind, hv⟩ := h
  exact ⟨e, List.mem_of_find?_eq_some hfind, hv⟩

theorem refOk_transform (scope : List Nat) (base start length replLen : Nat)
    (remap : List (Nat × Nat)) (j r v : Nat)
    (hstart : base + 1 ≤ start)
    (hmap : remapValid scope base start replLen remap)
    (hj : start + length ≤ j)
    (href : refOk scope base j r = true)
    (ht : rangeTransform start length replLen remap r = some v) :
    refOk scope base (j + replLen - length) v = true := by
  unfold refOk at href ⊢
  simp only [Bool.and_eq_true, Bool.or_eq_true, decide_eq_true_eq] at href ⊢
  obtain ⟨hrj, hsc⟩ := href
  by_cases h1 : r < start
  · rw [rangeTransform_lt _ _ _ _ _ h1] at ht
    cases ht
    exact ⟨by omega, hsc⟩
  · by_cases h2 : start + length ≤ r
    · rw [rangeTransform_ge _ _ _ _ _ h2] at ht
      cases ht
      refine ⟨by omega, Or.inr (by omega)⟩
    · rw [rangeTransform_mem _ _ _ _ _ (by omega) (by omega)] at ht
      obtain ⟨e, hmem, hev⟩ := lookupId_mem remap r v ht
      obtain ⟨hv1, hv2⟩ := hmap e hmem
      rw [hev] at hv1 hv2
      exact ⟨by omega, hv2⟩

theorem all_refOk_transform (scope : List Nat) (base start length replLen : Nat)
    (remap : List (Nat × Nat)) (j : Nat) (ids ids' : List Nat)
    (hstart : base + 1 ≤ start)
    (hmap : remapValid scope base start replLen remap)
    (hj : start + length ≤ j)
    (href : ids.all (refOk scope base j) = true)
    (hm : mapIds? (rangeTransform start length replLen remap) ids = some ids') :
    ids'.all (refOk scope base (j + replLen - length)) = true := by
  induction ids generalizing ids' with
  | nil => simp [mapIds?] at hm; subst hm; rfl
  | cons x xs ih =>
    simp only [mapIds?, Option.bind_eq_bind, Option.bind_eq_some,
      Option.some.injEq] at hm
    obtain ⟨y, hy, ys, hys, rfl⟩ := hm
    simp only [List.all_cons, Bool.and_eq_true] at href ⊢
    exact ⟨refOk_transform scope base start length replLen remap j x y hstart hmap hj
        href.1 hy, ih ys href.2 hys⟩

theorem allPairs_refOk_transform (scope : List Nat) (base start length replLen : Nat)
    (remap : List (Nat × Nat)) (j : Nat) (es es' : List (Nat × Nat))
    (hstart : base + 1 ≤ start)
    (hmap : remapValid scope base start replLen remap)
    (hj : start + length ≤ j)
    (href : es.all (fun e => refOk scope base j e.1 && refOk scope base j e.2) = true)
    (hm : mapPairs? (rangeTransform start length replLen remap) es = some es') :
    es'.all (fun e => refOk scope base (j + replLen - length) e.1 &&
      refOk scope base (j + replLen - length) e.2) = true := by
  induction es generalizing es' with
  | nil => simp [mapPairs?] at hm; subst hm; rfl
  | cons x xs ih =>
    simp only [mapPairs?, Option.bind_eq_bind, Option.bind_eq_some,
      Option.some.injEq] at hm
    obtain ⟨k, hk, v, hv, rest, hrest, rfl⟩ := hm
    simp only [List.all_cons, Bool.and_eq_true] at href ⊢
    refine ⟨⟨refOk_transform scope base start length replLen remap j x.1 k hstart hmap hj
        href.1.1 hk,
      refOk_transform scope base start length replLen remap j x.2 v hstart hmap hj
        href.1.2 hv⟩, ih rest href.2 hrest⟩

theorem wfStmts_append (scope : List Nat) (base : Nat) (xs ys : List Statement)
    (j : Nat) :
    wfStmts scope base j (xs ++ ys) =
      (wfStmts scope base j xs && wfStmts scope base (j + xs.length) ys) := by
  induction xs generalizing j with
  | nil => simp [wfStmts]
  | cons x xs ih =>
    simp only [List.cons_append, wfStmts, List.length_cons]
    have h2 : j + (xs.length + 1) = j + 1 + xs.length := by omega
    rw [show xs.append ys = xs ++ ys from rfl, ih, h2, Bool.and_assoc]

mutual
theorem Statement.wf_transform (scope : List Nat) (base start length replLen : Nat)
    (remap : List (Nat × Nat))
    (hstart : base + 1 ≤ start)
    (hmap : remapValid scope base start replLen remap)
    (j : Nat) (s s' : Statement)
    (hj : start + length ≤ j)
    (hwf : Statement.wf scope base j s = true)
    (hr : Statement.replaceIds? (rangeTransform start length replLen remap) s = some s') :
    Statement.wf scope base (j + replLen - length) s' = true := by
  cases s with
  | int n =>
    simp only [Statement.replaceIds?, Option.some.injEq] at hr
    subst hr; rfl
  | string v =>
    simp only [Statement.replaceIds?, Option.some.injEq] at hr
    subst hr; rfl
  | symbol v =>
    simp only [Statement.replaceIds?, Option.some.injEq] at hr
    subst hr; rfl
  | map es =>
    simp only [Statement.replaceIds?, Option.bind_eq_bind, Option.bind_eq_some,
      Option.some.injEq] at hr
    obtain ⟨es', hes, rfl⟩ := hr
    simp only [Statement.wf] at hwf ⊢
    exact allPairs_refOk_transform scope base start length replLen remap j es es'
      hstart hmap hj hwf hes
  | list ids =>
    simp only [Statement.replaceIds?, Option.bind_eq_bind, Option.bind_eq_some,
      Option.some.injEq] at hr
    obtain ⟨ids', hids, rfl⟩ := hr
    simp only [Statement.wf] at hwf ⊢
    exact all_refOk_transform scope base start length replLen remap j ids ids'
      hstart hmap hj hwf hids
  | code c =>
    simp only [Statement.replaceIds?, Option.bind_eq_bind, Option.bind_eq_some,
      Option.some.injEq] at hr
    obtain ⟨c', hc', rfl⟩ := hr
    simp only [Statement.wf, Bool.and_eq_true, beq_iff_eq] at hwf ⊢
    obtain ⟨hin, hwfc⟩ := hwf
    have hc : start + length ≤ c.in_ := by omega
    obtain ⟨h1, _h2, h3⟩ := Code.wf_transform_block scope base start length replLen remap
      hstart hmap c c' hc hwfc hc'
    exact ⟨by omega, h3⟩
  | call f a =>
    simp only [Statement.replaceIds?, Option.bind_eq_bind, Option.bind_eq_some,
      Option.some.injEq] at hr
    obtain ⟨f', hf, a', ha, rfl⟩ := hr
    simp only [Statement.wf, Bool.and_eq_true] at hwf ⊢
    exact ⟨refOk_transform scope base start length replLen remap j f f' hstart hmap hj
        hwf.1 hf,
      refOk_transform scope base start length replLen remap j a a' hstart hmap hj
        hwf.2 ha⟩
  | primitive k a =>
    simp only [Statement.replaceIds?, Option.bind_eq_bind, Option.bind_eq_some,
      Option.some.injEq] at hr
    obtain ⟨a', ha, rfl⟩ := hr
    simp only [Statement.wf] at hwf ⊢
    exact refOk_transform scope base start length replLen remap j a a' hstart hmap hj
      hwf ha

theorem Code.wf_transform_block (scope : List Nat) (base start length replLen : Nat)
    (remap : List (Nat × Nat))
    (hstart : base + 1 ≤ start)
    (hmap : remapValid scope base start replLen remap)
    (c c' : Code)
    (hc : start + length ≤ c.in_)
    (hwf : Code.wfAux scope base c = true)
    (hr : Code.replaceIds? (rangeTransform start length replLen remap) c = some c') :
    c'.in_ = c.in_ + replLen - length ∧ c'.statements.length = c.statements.length ∧
      Code.wfAux scope base c' = true := by
  cases c with
  | mk i o stmts =>
    simp only [Code.replaceIds?, Option.bind_eq_bind, Option.bind_eq_some,
      Option.some.injEq] at hr
    obtain ⟨i', hi, o', ho, stmts', hstmts, rfl⟩ := hr
    simp only [Code.in_mk] at hc
    rw [rangeTransform_ge _ _ _ _ _ hc] at hi
    cases hi
    simp only [Code.wfAux, Bool.and_eq_true, Bool.or_eq_true, beq_iff_eq,
      decide_eq_true_eq] at hwf ⊢
    obtain ⟨hout, hwfs⟩ := hwf
    obtain ⟨hlen, hwfs'⟩ := wfStmts_transform scope base start length replLen remap
      hstart hmap (i + 1) stmts stmts' (by omega) hwfs hstmts
    have heq : i + 1 + replLen - length = i + replLen - length + 1 := by omega
    rw [heq] at hwfs'
    refine ⟨rfl, hlen, ?_, hwfs'⟩
    cases hout with
    | inl h =>
      subst h
      rw [rangeTransform_ge _ _ _ _ _ hc] at ho
      cases ho
      exact Or.inl rfl
    | inr h =>
      have hoge : start + length ≤ o := by omega
      rw [rangeTransform_ge _ _ _ _ _ hoge] at ho
      cases ho
      exact Or.inr ⟨by omega, by omega⟩

theorem wfStmts_transform (scope : List Nat) (base start length replLen : Nat)
    (remap : List (Nat × Nat))
    (hstart : base + 1 ≤ start)
    (hmap : remapValid scope base start replLen remap)
    (j : Nat) (ss ss' : List Statement)
    (hj : start + length ≤ j)
    (hwf : wfStmts scope base j ss = true)
    (hr : replaceIdsList? (rangeTransform start length replLen remap) ss = some ss') :
    ss'.length = ss.length ∧ wfStmts scope base (j + replLen - length) ss' = true := by
  cases ss with
  | nil =>
    simp only [replaceIdsList?, Option.some.injEq] at hr
    subst hr
    exact ⟨rfl, rfl⟩
  | cons s rest =>
    simp only [replaceIdsList?, Option.bind_eq_bind, Option.bind_eq_some,
      Option.some.injEq] at hr
    obtain ⟨s', hs, rest', hrest, rfl⟩ := hr
    simp only [wfStmts, Bool.and_eq_true] at hwf ⊢
    obtain ⟨hws, hwr⟩ := hwf
    obtain ⟨hlen, hwr'⟩ := wfStmts_transform scope base start length replLen remap
      hstart hmap (j + 1) rest rest' (by omega) hwr hrest
    have heq : j + 1 + replLen - length = j + replLen - length + 1 := by omega
    rw [heq] at hwr'
    refine ⟨by simp [hlen], ?_, hwr'⟩
    exact Statement.wf_transform scope base start length replLen remap hstart hmap
      j s s' hj hws hs
end

/-- Amended C1: the conditions under which a call of replace_range keeps a
block well-formed.  Beyond the claim's hypotheses, the replacement
statements must themselves be well-formed at the positions they take over,
and the reference replacements must map into ids that are in scope and lie
before the end of the replacement range (with a target at or after `in_`
when the remapped id is the block's `out`). -/
theorem replaceRange_preserves_wf
    (scope : List Nat) (c c' : Code) (start length : Nat)
    (repl : List Statement) (remap : List (Nat × Nat))
    (hwf : Code.wf scope c = true)
    (hrepl : wfStmts scope c.in_ start repl = true)
    (hmap : remapValid scope c.in_ start repl.length remap)
    (hout : ∀ v, start ≤ c.out → c.out < start + length →
      lookupId remap c.out = some v → c.in_ ≤ v)
    (hsucc : c.replaceRange start length repl remap = some c') :
    Code.wf scope c' = true := by
  cases c with
  | mk i o stmts =>
  unfold Code.replaceRange at hsucc
  simp only [Code.in_mk, Code.out_mk, Code.statements_mk, Code.nextId] at hsucc hrepl hmap hout
  split at hsucc
  case isFalse => exact absurd hsucc (by simp)
  case isTrue hg =>
  obtain ⟨hg1, hg2⟩ := hg
  simp only [Option.bind_eq_bind, Option.bind_eq_some, Option.some.injEq] at hsucc
  obtain ⟨suffix, hsuf, newIn, hIn, newOut, hOut, hc'⟩ := hsucc
  rw [rangeTransform_lt _ _ _ _ _ (by omega)] at hIn
  cases hIn
  subst hc'
  -- abbreviations for the two cut indices
  have heI : start + length - i - 1 ≤ stmts.length := by omega
  have hsI : start - i - 1 ≤ start + length - i - 1 := by omega
  -- decompose the original well-formedness
  unfold Code.wf at hwf
  simp only [Code.in_mk, Code.wfAux, Code.statements_mk, Bool.and_eq_true] at hwf
  obtain ⟨hout0, hwstmts⟩ := hwf
  rw [show stmts = stmts.take (start + length - i - 1) ++ stmts.drop (start + length - i - 1)
      from (List.take_append_drop _ stmts).symm, wfStmts_append] at hwstmts
  simp only [Bool.and_eq_true] at hwstmts
  obtain ⟨hA, hS⟩ := hwstmts
  have hAlen : (stmts.take (start + length - i - 1)).length = start + length - i - 1 := by
    simp [List.length_take]; omega
  rw [hAlen, show i + 1 + (start + length - i - 1) = start + length by omega] at hS
  -- the statements after the range stay well-formed under the transform
  obtain ⟨hsflen, hwfsuf⟩ := wfStmts_transform scope i start length repl.length remap
    (by omega) hmap (start + length) _ suffix (by omega) hS hsuf
  rw [show start + length + repl.length - length = start + repl.length by omega] at hwfsuf
  have hsfl : suffix.length = stmts.length - (start + length - i - 1) := by
    rw [hsflen, List.length_drop]
  -- the statements before the range stay well-formed
  rw [show stmts.take (start + length - i - 1) =
        (stmts.take (start + length - i - 1)).take (start - i - 1) ++
        (stmts.take (start + length - i - 1)).drop (start - i - 1)
      from (List.take_append_drop _ _).symm, wfStmts_append] at hA
  simp only [Bool.and_eq_true, List.take_take] at hA
  rw [show min (start - i - 1) (start + length - i - 1) = start - i - 1 by omega] at hA
  obtain ⟨hPre, _⟩ := hA
  have hPreLen : (stmts.take (start - i - 1)).length = start - i - 1 := by
    simp [List.length_take]; omega
  -- assemble well-formedness of the result
  unfold Code.wf
  simp only [Code.in_mk, Code.wfAux, Code.statements_mk, Bool.and_eq_true]
  constructor
  · -- the out condition
    simp only [Bool.or_eq_true, beq_iff_eq, Bool.and_eq_true, decide_eq_true_eq,
      List.length_append, hPreLen, hsfl]
    by_cases ho1 : o < start
    · rw [rangeTransform_lt _ _ _ _ _ ho1] at hOut
      cases hOut
      simp only [Bool.or_eq_true, beq_iff_eq, Bool.and_eq_true, decide_eq_true_eq] at hout0
      omega
    · by_cases ho2 : start + length ≤ o
      · rw [rangeTransform_ge _ _ _ _ _ ho2] at hOut
        cases hOut
        simp only [Bool.or_eq_true, beq_iff_eq, Bool.and_eq_true, decide_eq_true_eq] at hout0
        omega
      · rw [rangeTransform_mem _ _ _ _ _ (by omega) (by omega)] at hOut
        have h1 := hout newOut (by omega) (by omega) hOut
        obtain ⟨e, hmem, hev⟩ := lookupId_mem remap o newOut hOut
        have h2 := (hmap e hmem).1
        rw [hev] at h2
        omega
  · -- the statement list
    rw [wfStmts_append, wfStmts_append]
    simp only [Bool.and_eq_true, List.length_append, hPreLen]
    refine ⟨⟨hPre, ?_⟩, ?_⟩
    · rw [show i + 1 + (start - i - 1) = start by omega]
      exact hrepl
    · rw [show i + 1 + (start - i - 1 + repl.length) = start + repl.length by omega]
      exact hwfsuf

/-- C1 counterexample: a well-formed block, a call of replace_range whose
range lies within the statements and whose reference replacements cover
every in-range id still referenced after the rewrite (vacuously: nothing
after the range and neither end references into it), yet the result is not
well-formed, because the replacement statement references the undefined
id 5. -/
theorem replaceRange_wf_counterexample :
    Code.wf [] (Code.mk 0 1 [.int 7, .int 8]) = true ∧
    Code.replaceRange (Code.mk 0 1 [.int 7, .int 8]) 2 1 [.list [5]] [] =
      some (Code.mk 0 1 [.int 7, .list [5]]) ∧
    Code.wf [] (Code.mk 0 1 [.int 7, .list [5]]) = false :=
  ⟨rfl, rfl, rfl⟩

/-- Witness for the amended C1 at a concrete rewrite: folding the two
int statements of a block into one literal keeps the block well-formed. -/
theorem replaceRange_preserves_wf_witness :
    Code.wf [] (Code.mk 0 3 [.symbol "", .int 3, .list [2, 2]]) = true :=
  replaceRange_preserves_wf [] (Code.mk 0 4 [.symbol "", .int 1, .int 2, .list [2, 3]])
    (Code.mk 0 3 [.symbol "", .int 3, .list [2, 2]]) 2 2 [.int 3] [(2, 2), (3, 2)]
    rfl rfl (by unfold remapValid; decide) (by intro v h1 h2 h3; simp only [Code.out_mk] at h2; omega) rfl

theorem replaceIdsList?_getElem? (t : Nat → Option Nat) (ss ss' : List Statement)
    (h : replaceIdsList? t ss = some ss') (k : Nat) :
    ss'[k]? = (ss[k]?).bind (Statement.replaceIds? t) := by
  induction ss generalizing ss' k with
  | nil =>
    simp only [replaceIdsList?, Option.some.injEq] at h
    subst h
    simp
  | cons s rest ih =>
    simp only [replaceIdsList?, Option.bind_eq_bind, Option.bind_eq_some,
      Option.some.injEq] at h
    obtain ⟨s', hs, rest', hrest, rfl⟩ := h
    cases k with
    | zero => simpa using hs.symm
    | succ k => simpa using ih rest' hrest k

/-- C2: on every successful call, replace_range leaves the statements
before the range unchanged, substitutes the replacement in place, rewrites
every statement after the range with the transform (ids below the start
unchanged, in-range ids looked up in the replacement map, ids at or past
the end shifted by the replacement length minus the range length), applies
the same transform to the block's `in_` and `out`, and the rewrite of a
nested Code statement recurses into its `in_`, `out` and statements. -/
theorem replaceRange_spec
    (c c' : Code) (start length : Nat) (repl : List Statement)
    (remap : List (Nat × Nat))
    (hsucc : c.replaceRange start length repl remap = some c') :
    (∀ k, k < start - c.in_ - 1 → c'.statements[k]? = c.statements[k]?) ∧
    (∀ k, k < repl.length → c'.statements[start - c.in_ - 1 + k]? = repl[k]?) ∧
    (∀ k, c'.statements[start - c.in_ - 1 + repl.length + k]? =
      (c.statements[start + length - c.in_ - 1 + k]?).bind
        (Statement.replaceIds? (rangeTransform start length repl.length remap))) ∧
    some c'.in_ = rangeTransform start length repl.length remap c.in_ ∧
    some c'.out = rangeTransform start length repl.length remap c.out ∧
    (∀ cc : Code, Statement.replaceIds?
        (rangeTransform start length repl.length remap) (.code cc) =
      (Code.replaceIds? (rangeTransform start length repl.length remap) cc).map .code) ∧
    (∀ t : Nat → Option Nat, ∀ cc : Code,
      Code.replaceIds? t cc = do
        let i' ← t cc.in_
        let o' ← t cc.out
        let ss' ← replaceIdsList? t cc.statements
        some (Code.mk i' o' ss')) := by
  cases c with
  | mk i o stmts =>
  unfold Code.replaceRange at hsucc
  simp only [Code.in_mk, Code.out_mk, Code.statements_mk, Code.nextId] at hsucc ⊢
  split at hsucc
  case isFalse => exact absurd hsucc (by simp)
  case isTrue hg =>
  obtain ⟨hg1, hg2⟩ := hg
  simp only [Option.bind_eq_bind, Option.bind_eq_some, Option.some.injEq] at hsucc
  obtain ⟨suffix, hsuf, newIn, hIn, newOut, hOut, hc'⟩ := hsucc
  subst hc'
  simp only [Code.in_mk, Code.out_mk, Code.statements_mk]
  have hPreLen : (stmts.take (start - i - 1)).length = start - i - 1 := by
    simp [List.length_take]; omega
  refine ⟨?_, ?_, ?_, hIn.symm, hOut.symm, ?_, ?_⟩
  · intro k hk
    rw [List.getElem?_append, if_pos (by rw [List.length_append, hPreLen]; omega),
      List.getElem?_append, if_pos (by rw [hPreLen]; omega)]
    rw [List.getElem?_take]
    simp [hk]
  · intro k hk
    rw [List.getElem?_append, if_pos (by rw [List.length_append, hPreLen]; omega),
      List.getElem?_append, if_neg (by rw [hPreLen]; omega)]
    rw [hPreLen, show start - i - 1 + k - (start - i - 1) = k from by omega]
  · intro k
    rw [List.getElem?_append, if_neg (by rw [List.length_append, hPreLen]; omega)]
    rw [List.length_append, hPreLen]
    have : start - i - 1 + repl.length + k - (start - i - 1 + repl.length) = k := by omega
    rw [this, replaceIdsList?_getElem? _ _ _ hsuf k, List.getElem?_drop]
  · intro cc
    cases hcc : Code.replaceIds? (rangeTransform start length repl.length remap) cc with
    | none => simp [Statement.replaceIds?, hcc]
    | some c2 => simp [Statement.replaceIds?, hcc]
  · intro t cc
    cases cc with
    | mk a b ss => rfl

/-- Witness for C2 at a concrete rewrite: the block's `out` is rewritten
by the transform (here shifted from 4 to 3). -/
theorem replaceRange_spec_witness :
    some (Code.mk 0 3 [.symbol "", .int 3, .list [2, 2]]).out =
      rangeTransform 2 2 1 [(2, 2), (3, 2)]
        (Code.mk 0 4 [.symbol "", .int 1, .int 2, .list [2, 3]]).out :=
  (replaceRange_spec (Code.mk 0 4 [.symbol "", .int 1, .int 2, .list [2, 3]])
    (Code.mk 0 3 [.symbol "", .int 3, .list [2, 2]]) 2 2 [.int 3]
    [(2, 2), (3, 2)] rfl).2.2.2.2.1

/-! ## HIR optimizer: pure-primitive evaluation
(src/interpreter/src/compiler/optimize_hir.rs)

Only the pass the claims exercise is embedded: `run_pure_primitives` and
its helper.  The known-statements table (an `im::HashMap<Id, Statement>`)
is modelled as an association list with insert-at-front, so the first
match is the most recent insertion, matching the hash map's overwrite
semantics. -/

/-- Lookup in the known-statements table (`im::HashMap::get`). -/
def lookupStatement (table : List (Nat × Statement)) (id : Nat) : Option Statement :=
  (table.find? (fun e => e.1 == id)).map (·.2)

/-- Rust `Statement::is_pure` from optimize_hir.rs: literals, composites
and code are pure, calls are not, and of the primitives only `Add` is. -/
def Statement.isPure : Statement → Bool
  | .int _ => true
  | .string _ => true
  | .symbol _ => true
  | .map _ => true
  | .list _ => true
  | .code _ => true
  | .call _ _ => false
  | .primitive k _ =>
    match k with
    | .magic => false
    | .add => true
    | .print => false

/-- Rust `Code::run_pure_primitive` (optimize_hir.rs:280-304).  Note the
faithfully reproduced quirk: the Rust closure writes `return None` inside
`.map(...)`, which only exits the closure, and the following `.flatten()`
silently SKIPS every list element that does not resolve to an `Int`; the
sum is taken over the `Int` elements alone.  (A list element id missing
from the table is an `unwrap` panic in Rust; it cannot occur for tables
built by the pass and is modelled as a skip as well.  The `i64` sum wraps
in Rust release builds; the wrap is not modelled.)  Any kind other than
`Add` is a Rust panic, unreachable from the pass because `Add` is the only
pure kind; it is modelled as `none`. -/
def Code.runPurePrimitive (kind : Primitive) (arg : Nat)
    (statements : List (Nat × Statement)) : Option Statement :=
  match kind with
  | .add =>
    match lookupStatement statements arg with
    | some (.list l) =>
      let numbers := l.filterMap (fun id =>
        match lookupStatement statements id with
        | some (.int n) => some n
        | _ => none)
      some (.int (numbers.foldl (· + ·) 0))
    | _ => none
  | _ => none

/-- Statement loop of `Code::run_pure_primitives_helper`
(optimize_hir.rs:266-279): walk the statements with their ids, replace a
pure `Primitive` whose evaluation succeeds, and insert the ORIGINAL
statement (the Rust `clone` taken before the replacement) into the table.
The pass does not recurse into nested `Code` statements. -/
def runPurePrimitivesStmts (table : List (Nat × Statement)) (j : Nat) :
    List Statement → List Statement
  | [] => []
  | s :: rest =>
    let s' := match s with
      | .primitive kind arg =>
        if (Statement.primitive kind arg).isPure then
          match Code.runPurePrimitive kind arg table with
          | some result => result
          | none => .primitive kind arg
        else .primitive kind arg
      | other => other
    s' :: runPurePrimitivesStmts ((j, s) :: table) (j + 1) rest

/-- Rust `Code::run_pure_primitives_helper` on a block with an inherited
known-statements table. -/
def Code.runPurePrimitivesHelper (c : Code) (table : List (Nat × Statement)) : Code :=
  .mk c.in_ c.out (runPurePrimitivesStmts table (c.in_ + 1) c.statements)

/-- Rust `Code::run_pure_primitives`: the helper with an empty table. -/
def Code.runPurePrimitives (c : Code) : Code := c.runPurePrimitivesHelper []

/-- C4 failing input: id 3 is a List whose element id 2 resolves to a
String, not an Int, yet the pass replaces the Add primitive at id 4 with
the literal `Int 1` (the sum of the Int elements alone) instead of leaving
it unchanged: the `return None` in the Rust closure only exits the
closure, and `.flatten()` drops the non-Int element. -/
theorem runPurePrimitives_folds_past_non_int :
    Code.runPurePrimitives
      (Code.mk 0 4 [.int 1, .string "x", .list [1, 2], .primitive .add 3]) =
    Code.mk 0 4 [.int 1, .string "x", .list [1, 2], .int 1] := rfl

/-! ## HIR to LIR lowering: the captured set
(src/interpreter/src/compiler/hir_to_lir.rs:6-16)

Only the `captured` field of `compile_to_lir` is embedded, since the claim
under study is about it: collect every id used by any statement of the
block (recursively into nested blocks), deduplicate (the Rust `HashSet`)
and sort. -/

mutual
/-- Rust `Statement::collect_used_ids` (hir.rs:318-348), collecting into a
list; the `HashSet` semantics is recovered by `sortUnique` below, which
makes the collection order irrelevant. -/
def Statement.collectUsedIds : Statement → List Nat
  | .int _ => []
  | .string _ => []
  | .symbol _ => []
  | .map es => es.flatMap (fun e => [e.1, e.2])
  | .list ids => ids
  | .code (.mk i o stmts) => i :: o :: collectUsedIdsList stmts
  | .call f a => [f, a]
  | .primitive _ a => [a]
/-- Used ids of all statements of a block, in order. -/
def collectUsedIdsList : List Statement → List Nat
  | [] => []
  | s :: rest => Statement.collectUsedIds s ++ collectUsedIdsList rest
end

/-- Insertion into a sorted duplicate-free list. -/
def insertSortedUnique (x : Nat) : List Nat → List Nat
  | [] => [x]
  | y :: ys =>
    if x < y then x :: y :: ys
    else if x = y then y :: ys
    else y :: insertSortedUnique x ys

/-- Sorted list of the distinct elements: the model of Rust's
`HashSet` collected into a `Vec` and then `sort`ed. -/
def sortUnique (l : List Nat) : List Nat := l.foldr insertSortedUnique []

/-- The `captured` field computed by `hir::Code::compile_to_lir`
(hir_to_lir.rs:8-16): ALL ids used anywhere in the block, sorted — the
Rust code never filters out ids defined by the block itself. -/
def Code.compileToLirCaptured (c : Code) : List Nat :=
  sortUnique (collectUsedIdsList c.statements)

/-- C5 failing input: a block with `in_ = 1` whose statement id 3
references id 2, an id defined by the block itself.  The computed captured
set is `[2]`, although 2 is not strictly below the block's first statement
id 2, so the claim's description (only outside-defined ids are captured)
does not hold: the filter is missing from the code. -/
theorem compileToLirCaptured_keeps_local_id :
    Code.compileToLirCaptured (Code.mk 1 3 [.int 5, .list [2]]) = [2] ∧
    ¬ (2 < (Code.mk 1 3 [.int 5, .list [2]]).in_ + 1) :=
  ⟨rfl, by decide⟩

/-! ## Byte code (src/interpreter/src/compiler/byte_code.rs,
src/interpreter/src/compiler/lir_to_byte_code.rs)

Rust `String` operands are modelled by their UTF-8 byte sequences (the
parser's UTF-8 validation is not modelled; the bytes are kept as bytes).
Fields typed `u8`/`u64` in Rust are `Nat` here and are truncated modulo
the type's range when emitted. -/

/-- Enum `PrimitiveKind` from primitives.rs (the seven-variant VM one). -/
inductive PrimitiveKind where
  | add
  | getItem
  | getAmbient
  | panic
  | createChannel
  | send
  | receive
deriving DecidableEq, Repr

/-- Rust `PrimitiveKind::all`. -/
def PrimitiveKind.all : List PrimitiveKind :=
  [.add, .getItem, .getAmbient, .panic, .createChannel, .send, .receive]

/-- Rust `PrimitiveKind::parse`. -/
def PrimitiveKind.parse (symbol : String) : Option PrimitiveKind :=
  match symbol with
  | "add" => some .add
  | "get-item" => some .getItem
  | "get-ambient" => some .getAmbient
  | "panic" => some .panic
  | "channel" => some .createChannel
  | "send" => some .send
  | "receive" => some .receive
  | _ => none

/-- Byte-code instructions (byte_code.rs `Instruction`). -/
inductive Instruction where
  | createInt (n : Int)
  | createString (bytes : List Nat)
  | createSmallString (bytes : List Nat)
  | createSymbol (bytes : List Nat)
  | createMap (len : Nat)
  | createList (len : Nat)
  | createClosure (numCapturedVars : Nat)
  | dup (offset : Nat)
  | dupNear (offset : Nat)
  | drop (offset : Nat)
  | dropNear (offset : Nat)
  | pop
  | popMultipleBelowTop (num : Nat)
  | pushAddress (addr : Nat)
  | pushFromStack (offset : Nat)
  | pushNearFromStack (offset : Nat)
  | jump (addr : Nat)
  | call
  | ret
  | primitive (kind : Option PrimitiveKind)
deriving DecidableEq, Repr

/-- Little-endian bytes of a `u64` (`u64::to_le_bytes`). -/
def u64Bytes (n : Nat) : List Nat :=
  (List.range 8).map (fun k => n / 256 ^ k % 256)

/-- Value of 8 little-endian bytes (`u64::from_le_bytes`). -/
def u64OfBytes (bs : List Nat) : Nat :=
  ((bs.zip (List.range bs.length)).map (fun p => p.1 * 256 ^ p.2)).sum

/-- Reinterpretation of a `u64` as an `i64` (`as i64`). -/
def i64OfU64 (n : Nat) : Int :=
  if n < 2 ^ 63 then (n : Int) else (n : Int) - 2 ^ 64

/-- The `ByteCodeExt::push_instruction` opcode table
(lir_to_byte_code.rs:165-248) — the emitter the compiler uses.  The Rust
match also has an arm `Primitive(Some(PrimitiveKind::Print)) => 16` for a
`Print` variant that does not exist in primitives.rs (the repository is
mid-refactor), and no arms for the other five kinds; those are `none`
here. -/
def pushInstruction : Instruction → Option (List Nat)
  | .createInt n => some (0 :: u64Bytes (n % 2 ^ 64).toNat)
  | .createString s => some (1 :: u64Bytes s.length ++ s.map (· % 256))
  | .createSmallString s => some (17 :: s.length % 256 :: s.map (· % 256))
  | .createSymbol s => some (2 :: s.map (· % 256) ++ [0])
  | .createMap len => some (3 :: u64Bytes len)
  | .createList len => some (4 :: u64Bytes len)
  | .createClosure n => some (5 :: u64Bytes n)
  | .dup offset => some (6 :: u64Bytes offset)
  | .dupNear offset => some [18, offset % 256]
  | .drop offset => some (7 :: u64Bytes offset)
  | .dropNear offset => some [19, offset % 256]
  | .pop => some [8]
  | .popMultipleBelowTop n => some [9, n % 256]
  | .pushAddress addr => some (10 :: u64Bytes addr)
  | .pushFromStack offset => some (11 :: u64Bytes offset)
  | .pushNearFromStack offset => some [20, offset % 256]
  | .jump addr => some (12 :: u64Bytes addr)
  | .call => some [13]
  | .ret => some [14]
  | .primitive none => some [15]
  | .primitive (some .add) => some [21]
  | .primitive (some _) => none

/-- Rust `Parser::get_u64` on the remaining bytes: the 8-byte prefix and
the rest (a short slice is the Rust index panic, `none` here). -/
def parseU64 (bs : List Nat) : Option (Nat × List Nat) :=
  if 8 ≤ bs.length then some (u64OfBytes (bs.take 8), bs.drop 8) else none

/-- Rust `Instruction::parse` (byte_code.rs:125-197): parse one
instruction from the front of the byte sequence and return it together
with the number of bytes consumed.  (Rust returns the count as `u8`; the
wrap for instructions longer than 255 bytes is not modelled.)  Every panic
of the Rust parser — empty input, short operand, missing symbol
terminator, unknown opcode — is `none`. -/
def Instruction.parse (byteCode : List Nat) : Option (Instruction × Nat) :=
  match byteCode with
  | [] => none
  | opcode :: rest =>
    match opcode with
    | 0 => (parseU64 rest).map (fun p => (.createInt (i64OfU64 p.1), 9))
    | 1 => do
      let p ← parseU64 rest
      if p.1 ≤ p.2.length then
        some (.createString (p.2.take p.1), 9 + p.1)
      else none
    | 2 =>
      match rest with
      | [] => none
      | len :: rest2 =>
        if len ≤ rest2.length then
          some (.createSmallString (rest2.take len), 2 + len)
        else none
    | 3 =>
      if rest.contains 0 then
        some (.createSymbol (rest.takeWhile (· ≠ 0)),
          2 + (rest.takeWhile (· ≠ 0)).length)
      else none
    | 4 => (parseU64 rest).map (fun p => (.createMap p.1, 9))
    | 5 => (parseU64 rest).map (fun p => (.createList p.1, 9))
    | 6 => (parseU64 rest).map (fun p => (.createClosure p.1, 9))
    | 10 => (parseU64 rest).map (fun p => (.dup p.1, 9))
    | 11 => rest.head?.map (fun b => (.dupNear b, 2))
    | 12 => (parseU64 rest).map (fun p => (.drop p.1, 9))
    | 13 => rest.head?.map (fun b => (.dropNear b, 2))
    | 20 => some (.pop, 1)
    | 21 => rest.head?.map (fun b => (.popMultipleBelowTop b, 2))
    | 22 => (parseU64 rest).map (fun p => (.pushAddress p.1, 9))
    | 23 => (parseU64 rest).map (fun p => (.pushFromStack p.1, 9))
    | 24 => rest.head?.map (fun b => (.pushNearFromStack b, 2))
    | 30 => (parseU64 rest).map (fun p => (.jump p.1, 9))
    | 31 => some (.call, 1)
    | 32 => some (.ret, 1)
    | 100 => some (.primitive none, 1)
    | op =>
      if 101 ≤ op ∧ op ≤ 100 + PrimitiveKind.all.length then
        some (.primitive (PrimitiveKind.all[op - 101]?), 1)
      else none

/-- C3 failing input: `push_instruction` (the emitter the LIR compiler
uses) writes opcode 13 for `Call` and 14 for `Return`, but
`Instruction::parse` (the parser the fiber uses) reads opcode 13 as
`DropNear`; the two functions follow different opcode tables (parse
matches `Instruction::to_bytes`, where `Call` is 31), so parsing the
emitted bytes does not give back the emitted instructions. -/
theorem pushInstruction_parse_mismatch :
    pushInstruction .call = some [13] ∧
    pushInstruction .ret = some [14] ∧
    Instruction.parse [13, 14] = some (.dropNear 14, 2) ∧
    Instruction.parse [13, 14] ≠ some (.call, 1) :=
  ⟨rfl, rfl, rfl, by decide⟩

/-! ## Runtime values and the fiber heap (src/interpreter/src/vm/utils.rs,
src/interpreter/src/vm/fiber.rs)

Rust `Value::Map` is a `HashMap<Value, Value>`; it is modelled as an
association list in iteration order (import, export and drop all traverse
the map in one unspecified but fixed order; the model fixes it to the
list order).  The fiber's heap, a `HashMap<Pointer, Object>`, is an
association list to which `create_object` appends fresh keys; pointers
(`u64`) are `Nat`. -/

inductive Value where
  | int (n : Int)
  | string (s : String)
  | symbol (s : String)
  | map (entries : List (Value × Value))
  | list (items : List Value)
  | closure (captured : List Value) (body : Nat)
  | channelSendEnd (id : Nat)
  | channelReceiveEnd (id : Nat)

/-- Rust `Value::unit`: the empty symbol. -/
def Value.unit : Value := .symbol ""

/-- Heap object data (fiber.rs `ObjectData`): like `Value`, but composite
objects reference their children by heap pointer. -/
inductive ObjectData where
  | int (n : Int)
  | string (s : String)
  | symbol (s : String)
  | map (entries : List (Nat × Nat))
  | list (items : List Nat)
  | closure (captured : List Nat) (body : Nat)
  | channelSendEnd (id : Nat)
  | channelReceiveEnd (id : Nat)

/-- Heap object (fiber.rs `Object`). -/
structure Object where
  referenceCount : Nat
  data : ObjectData

/-- The part of the fiber state that import and export touch: the heap
and the next free heap address. -/
structure FiberHeap where
  heap : List (Nat × Object)
  nextHeapAddress : Nat

/-- Rust `Fiber::create_object`: insert a fresh object with reference
count 1 at the next heap address and advance it. -/
def createObject (st : FiberHeap) (data : ObjectData) : FiberHeap × Nat :=
  (⟨st.heap ++ [(st.nextHeapAddress, ⟨1, data⟩)], st.nextHeapAddress + 1⟩,
    st.nextHeapAddress)

/-- Rust `Fiber::get_from_heap` (an `unwrap` on a missing pointer). -/
def heapGet (h : List (Nat × Object)) (p : Nat) : Option Object :=
  (h.find? (fun e => e.1 == p)).map (·.2)

/-- In-place update of the object at a pointer (the effect of mutating
through `get_from_heap`). -/
def heapSet (h : List (Nat × Object)) (p : Nat) (o : Object) :
    List (Nat × Object) :=
  h.map (fun e => if e.1 == p then (p, o) else e)

/-- Rust `Fiber::free_object`: remove the entry. -/
def heapRemove (h : List (Nat × Object)) (p : Nat) : List (Nat × Object) :=
  h.filter (fun e => e.1 != p)

mutual
/-- Rust `Fiber::import` (fiber.rs:139-172): recursively import the
children (map keys before their values, in iteration order), then create
the object for the node itself. -/
def importValue (st : FiberHeap) : Value → FiberHeap × Nat
  | .int n => createObject st (.int n)
  | .string s => createObject st (.string s)
  | .symbol s => createObject st (.symbol s)
  | .map es =>
    let r := importPairs st es
    createObject r.1 (.map r.2)
  | .list items =>
    let r := importValues st items
    createObject r.1 (.list r.2)
  | .closure cap body =>
    let r := importValues st cap
    createObject r.1 (.closure r.2 body)
  | .channelSendEnd id => createObject st (.channelSendEnd id)
  | .channelReceiveEnd id => createObject st (.channelReceiveEnd id)
/-- Import of a sequence of values in order. -/
def importValues (st : FiberHeap) : List Value → FiberHeap × List Nat
  | [] => (st, [])
  | v :: rest =>
    let r := importValue st v
    let r2 := importValues r.1 rest
    (r2.1, r.2 :: r2.2)
/-- Import of the entries of a map, key before value. -/
def importPairs (st : FiberHeap) : List (Value × Value) → FiberHeap × List (Nat × Nat)
  | [] => (st, [])
  | e :: rest =>
    let rk := importValue st e.1
    let rv := importValue rk.1 e.2
    let r2 := importPairs rv.1 rest
    (r2.1, (rk.2, rv.2) :: r2.2)
end

mutual
/-- Number of heap objects a value imports to (one per node of the value
tree). -/
def Value.nodeCount : Value → Nat
  | .int _ => 1
  | .string _ => 1
  | .symbol _ => 1
  | .map es => nodeCountPairs es + 1
  | .list items => nodeCountValues items + 1
  | .closure cap _ => nodeCountValues cap + 1
  | .channelSendEnd _ => 1
  | .channelReceiveEnd _ => 1
/-- Node count of a sequence of values. -/
def nodeCountValues : List Value → Nat
  | [] => 0
  | v :: rest => v.nodeCount + nodeCountValues rest
/-- Node count of map entries. -/
def nodeCountPairs : List (Value × Value) → Nat
  | [] => 0
  | e :: rest => e.1.nodeCount + e.2.nodeCount + nodeCountPairs rest
end

mutual
/-- Rust `Fiber::export_helper` (fiber.rs:178-210): read the object and
recursively materialize the value.  The Rust recursion has no fuel; the
explicit fuel models its termination (it runs out only on heaps with
cyclic or missing pointers, which import never builds), and a missing
pointer is the `unwrap` panic, `none` here. -/
def exportHelper (fuel : Nat) (h : List (Nat × Object)) (p : Nat) : Option Value :=
  match fuel with
  | 0 => none
  | fuel + 1 => do
    let obj ← heapGet h p
    match obj.data with
    | .int n => some (.int n)
    | .string s => some (.string s)
    | .symbol s => some (.symbol s)
    | .map pps => do
      let es ← exportPairs fuel h pps
      some (.map es)
    | .list ps => do
      let items ← exportValues fuel h ps
      some (.list items)
    | .closure ps body => do
      let cap ← exportValues fuel h ps
      some (.closure cap body)
    | .channelSendEnd id => some (.channelSendEnd id)
    | .channelReceiveEnd id => some (.channelReceiveEnd id)
termination_by (fuel, 0)
/-- Export of a sequence of pointers. -/
def exportValues (fuel : Nat) (h : List (Nat × Object)) (ps : List Nat) :
    Option (List Value) :=
  match ps with
  | [] => some []
  | p :: ps => do
    let v ← exportHelper fuel h p
    let rest ← exportValues fuel h ps
    some (v :: rest)
termination_by (fuel, ps.length + 1)
/-- Export of map entries, key before value. -/
def exportPairs (fuel : Nat) (h : List (Nat × Object)) (pps : List (Nat × Nat)) :
    Option (List (Value × Value)) :=
  match pps with
  | [] => some []
  | pp :: pps => do
    let k ← exportHelper fuel h pp.1
    let v ← exportHelper fuel h pp.2
    let rest ← exportPairs fuel h pps
    some ((k, v) :: rest)
termination_by (fuel, pps.length + 1)
end

mutual
/-- Rust `Fiber::drop` (fiber.rs:110-137): decrement the reference count;
on reaching zero, recursively drop the children and free the object.  The
fuel models the unbounded Rust recursion as in `exportHelper`.  (A drop of
an object whose count is already zero would underflow-panic in a Rust
debug build; `Nat` subtraction keeps it at zero here — the path is never
reached from the claims.) -/
def dropPtr (fuel : Nat) (h : List (Nat × Object)) (p : Nat) :
    Option (List (Nat × Object)) :=
  match fuel with
  | 0 => none
  | fuel + 1 => do
    let obj ← heapGet h p
    let rc := obj.referenceCount - 1
    let h1 := heapSet h p ⟨rc, obj.data⟩
    if rc = 0 then
      match obj.data with
      | .int _ => some (heapRemove h1 p)
      | .string _ => some (heapRemove h1 p)
      | .symbol _ => some (heapRemove h1 p)
      | .map pps => do
        let h2 ← dropPairs fuel h1 pps
        some (heapRemove h2 p)
      | .list ps => do
        let h2 ← dropPtrs fuel h1 ps
        some (heapRemove h2 p)
      | .closure ps _ => do
        let h2 ← dropPtrs fuel h1 ps
        some (heapRemove h2 p)
      | .channelSendEnd _ => some (heapRemove h1 p)
      | .channelReceiveEnd _ => some (heapRemove h1 p)
    else
      some h1
termination_by (fuel, 0)
/-- Drop of a sequence of pointers in order. -/
def dropPtrs (fuel : Nat) (h : List (Nat × Object)) (ps : List Nat) :
    Option (List (Nat × Object)) :=
  match ps with
  | [] => some h
  | p :: ps => do
    let h1 ← dropPtr fuel h p
    dropPtrs fuel h1 ps
termination_by (fuel, ps.length + 1)
/-- Drop of map entries, key before value. -/
def dropPairs (fuel : Nat) (h : List (Nat × Object)) (pps : List (Nat × Nat)) :
    Option (List (Nat × Object)) :=
  match pps with
  | [] => some h
  | pp :: pps => do
    let h1 ← dropPtr fuel h pp.1
    let h2 ← dropPtr fuel h1 pp.2
    dropPairs fuel h2 pps
termination_by (fuel, pps.length + 1)
end

/-- Rust `Fiber::export` (fiber.rs:173-177): materialize the value, then
drop the pointer (freeing the whole subtree when its count reaches zero).
Returns the value together with the heap after the drop. -/
def exportValue (fuel : Nat) (st : FiberHeap) (p : Nat) :
    Option (Value × FiberHeap) := do
  let v ← exportHelper fuel st.heap p
  let h ← dropPtr fuel st.heap p
  some (v, ⟨h, st.nextHeapAddress⟩)

/-! ### The heap block written by an import

`importValue` appends a block of entries that depends only on the next
free address and the value; the following functions compute that block,
the pointers handed out for sequences, and the root pointer, and
`importValue_eq` proves the characterization. -/

/-- Pointers returned for a sequence of imported values starting at
address `a` (each value's root is the last address of its block). -/
def importedPtrs (a : Nat) : List Value → List Nat
  | [] => []
  | v :: rest => (a + v.nodeCount - 1) :: importedPtrs (a + v.nodeCount) rest

/-- Pointer pairs returned for imported map entries starting at `a`. -/
def importedPtrPairs (a : Nat) : List (Value × Value) → List (Nat × Nat)
  | [] => []
  | e :: rest =>
    (a + e.1.nodeCount - 1, a + e.1.nodeCount + e.2.nodeCount - 1) ::
      importedPtrPairs (a + e.1.nodeCount + e.2.nodeCount) rest

mutual
/-- The heap entries an import of `v` starting at address `a` appends. -/
def importedEntries (a : Nat) : Value → List (Nat × Object)
  | .int n => [(a, ⟨1, .int n⟩)]
  | .string s => [(a, ⟨1, .string s⟩)]
  | .symbol s => [(a, ⟨1, .symbol s⟩)]
  | .map es => importedEntriesPairs a es ++
      [(a + nodeCountPairs es, ⟨1, .map (importedPtrPairs a es)⟩)]
  | .list items => importedEntriesValues a items ++
      [(a + nodeCountValues items, ⟨1, .list (importedPtrs a items)⟩)]
  | .closure cap body => importedEntriesValues a cap ++
      [(a + nodeCountValues cap, ⟨1, .closure (importedPtrs a cap) body⟩)]
  | .channelSendEnd id => [(a, ⟨1, .channelSendEnd id⟩)]
  | .channelReceiveEnd id => [(a, ⟨1, .channelReceiveEnd id⟩)]
/-- Entries appended by importing a sequence of values. -/
def importedEntriesValues (a : Nat) : List Value → List (Nat × Object)
  | [] => []
  | v :: rest => importedEntries a v ++ importedEntriesValues (a + v.nodeCount) rest
/-- Entries appended by importing map entries, key before value. -/
def importedEntriesPairs (a : Nat) : List (Value × Value) → List (Nat × Object)
  | [] => []
  | e :: rest => importedEntries a e.1 ++ importedEntries (a + e.1.nodeCount) e.2 ++
      importedEntriesPairs (a + e.1.nodeCount + e.2.nodeCount) rest
end

theorem Value.nodeCount_pos (v : Value) : 1 ≤ v.nodeCount := by
  cases v <;> simp [Value.nodeCount]

mutual
theorem importValue_eq (h : List (Nat × Object)) (a : Nat) (v : Value) :
    importValue ⟨h, a⟩ v =
      (⟨h ++ importedEntries a v, a + v.nodeCount⟩, a + v.nodeCount - 1) := by
  cases v with
  | int n => rfl
  | string s => rfl
  | symbol s => rfl
  | channelSendEnd id => rfl
  | channelReceiveEnd id => rfl
  | map es =>
    simp only [importValue, importPairs_eq h a es, createObject, importedEntries,
      Value.nodeCount, List.append_assoc]
    rw [show a + (nodeCountPairs es + 1) - 1 = a + nodeCountPairs es from by omega,
      show a + (nodeCountPairs es + 1) = a + nodeCountPairs es + 1 from by omega]
  | list items =>
    simp only [importValue, importValues_eq h a items, createObject, importedEntries,
      Value.nodeCount, List.append_assoc]
    rw [show a + (nodeCountValues items + 1) - 1 = a + nodeCountValues items from by omega,
      show a + (nodeCountValues items + 1) = a + nodeCountValues items + 1 from by omega]
  | closure cap body =>
    simp only [importValue, importValues_eq h a cap, createObject, importedEntries,
      Value.nodeCount, List.append_assoc]
    rw [show a + (nodeCountValues cap + 1) - 1 = a + nodeCountValues cap from by omega,
      show a + (nodeCountValues cap + 1) = a + nodeCountValues cap + 1 from by omega]
theorem importValues_eq (h : List (Nat × Object)) (a : Nat) (vs : List Value) :
    importValues ⟨h, a⟩ vs =
      (⟨h ++ importedEntriesValues a vs, a + nodeCountValues vs⟩, importedPtrs a vs) := by
  cases vs with
  | nil => simp [importValues, importedEntriesValues, nodeCountValues, importedPtrs]
  | cons v rest =>
    simp only [importValues, importValue_eq h a v,
      importValues_eq (h ++ importedEntries a v) (a + v.nodeCount) rest,
      importedEntriesValues, nodeCountValues, importedPtrs, List.append_assoc]
    rw [show a + (v.nodeCount + nodeCountValues rest) = a + v.nodeCount + nodeCountValues rest
      from by omega]
theorem importPairs_eq (h : List (Nat × Object)) (a : Nat) (es : List (Value × Value)) :
    importPairs ⟨h, a⟩ es =
      (⟨h ++ importedEntriesPairs a es, a + nodeCountPairs es⟩, importedPtrPairs a es) := by
  cases es with
  | nil => simp [importPairs, importedEntriesPairs, nodeCountPairs, importedPtrPairs]
  | cons e rest =>
    simp only [importPairs, importValue_eq h a e.1,
      importValue_eq (h ++ importedEntries a e.1) (a + e.1.nodeCount) e.2,
      importPairs_eq (h ++ (importedEntries a e.1 ++ importedEntries (a + e.1.nodeCount) e.2))
        (a + e.1.nodeCount + e.2.nodeCount) rest,
      importedEntriesPairs, nodeCountPairs, importedPtrPairs, List.append_assoc]
    rw [show a + (e.1.nodeCount + e.2.nodeCount + nodeCountPairs rest) =
        a + e.1.nodeCount + e.2.nodeCount + nodeCountPairs rest from by omega]
end

mutual
theorem importedEntries_facts (a : Nat) (v : Value) :
    (importedEntries a v).length = v.nodeCount ∧
    ∀ e ∈ importedEntries a v,
      a ≤ e.1 ∧ e.1 < a + v.nodeCount ∧ e.2.referenceCount = 1 := by
  cases v with
  | int n => simp [importedEntries, Value.nodeCount]
  | string s => simp [importedEntries, Value.nodeCount]
  | symbol s => simp [importedEntries, Value.nodeCount]
  | channelSendEnd id => simp [importedEntries, Value.nodeCount]
  | channelReceiveEnd id => simp [importedEntries, Value.nodeCount]
  | map es =>
    obtain ⟨hl, hm⟩ := importedEntriesPairs_facts a es
    constructor
    · simp [importedEntries, Value.nodeCount, hl]
    · intro e he
      simp only [importedEntries, List.mem_append, List.mem_singleton] at he
      rcases he with he | he
      · obtain ⟨h1, h2, h3⟩ := hm e he
        exact ⟨h1, by simp [Value.nodeCount]; omega, h3⟩
      · subst he
        simp [Value.nodeCount]
  | list items =>
    obtain ⟨hl, hm⟩ := importedEntriesValues_facts a items
    constructor
    · simp [importedEntries, Value.nodeCount, hl]
    · intro e he
      simp only [importedEntries, List.mem_append, List.mem_singleton] at he
      rcases he with he | he
      · obtain ⟨h1, h2, h3⟩ := hm e he
        exact ⟨h1, by simp [Value.nodeCount]; omega, h3⟩
      · subst he
        simp [Value.nodeCount]
  | closure cap body =>
    obtain ⟨hl, hm⟩ := importedEntriesValues_facts a cap
    constructor
    · simp [importedEntries, Value.nodeCount, hl]
    · intro e he
      simp only [importedEntries, List.mem_append, List.mem_singleton] at he
      rcases he with he | he
      · obtain ⟨h1, h2, h3⟩ := hm e he
        exact ⟨h1, by simp [Value.nodeCount]; omega, h3⟩
      · subst he
        simp [Value.nodeCount]
theorem importedEntriesValues_facts (a : Nat) (vs : List Value) :
    (importedEntriesValues a vs).length = nodeCountValues vs ∧
    ∀ e ∈ importedEntriesValues a vs,
      a ≤ e.1 ∧ e.1 < a + nodeCountValues vs ∧ e.2.referenceCount = 1 := by
  cases vs with
  | nil => simp [importedEntriesValues, nodeCountValues]
  | cons v rest =>
    obtain ⟨hl1, hm1⟩ := importedEntries_facts a v
    obtain ⟨hl2, hm2⟩ := importedEntriesValues_facts (a + v.nodeCount) rest
    constructor
    · simp [importedEntriesValues, nodeCountValues, hl1, hl2]
    · intro e he
      simp only [importedEntriesValues, List.mem_append] at he
      rcases he with he | he
      · obtain ⟨h1, h2, h3⟩ := hm1 e he
        exact ⟨h1, by simp [nodeCountValues]; omega, h3⟩
      · obtain ⟨h1, h2, h3⟩ := hm2 e he
        exact ⟨by omega, by simp [nodeCountValues]; omega, h3⟩
theorem importedEntriesPairs_facts (a : Nat) (es : List (Value × Value)) :
    (importedEntriesPairs a es).length = nodeCountPairs es ∧
    ∀ e ∈ importedEntriesPairs a es,
      a ≤ e.1 ∧ e.1 < a + nodeCountPairs es ∧ e.2.referenceCount = 1 := by
  cases es with
  | nil => simp [importedEntriesPairs, nodeCountPairs]
  | cons p rest =>
    obtain ⟨hl1, hm1⟩ := importedEntries_facts a p.1
    obtain ⟨hl2, hm2⟩ := importedEntries_facts (a + p.1.nodeCount) p.2
    obtain ⟨hl3, hm3⟩ := importedEntriesPairs_facts (a + p.1.nodeCount + p.2.nodeCount) rest
    constructor
    · simp [importedEntriesPairs, nodeCountPairs, hl1, hl2, hl3]; omega
    · intro e he
      simp only [importedEntriesPairs, List.mem_append] at he
      rcases he with (he | he) | he
      · obtain ⟨h1, h2, h3⟩ := hm1 e he
        exact ⟨h1, by simp [nodeCountPairs]; omega, h3⟩
      · obtain ⟨h1, h2, h3⟩ := hm2 e he
        exact ⟨by omega, by simp [nodeCountPairs]; omega, h3⟩
      · obtain ⟨h1, h2, h3⟩ := hm3 e he
        exact ⟨by omega, by simp [nodeCountPairs]; omega, h3⟩
end

/-! ### Heap manipulation lemmas -/

theorem heapGet_append_right_of (X rest : List (Nat × Object)) (p : Nat)
    (hX : ∀ e ∈ X, e.1 ≠ p) : heapGet (X ++ rest) p = heapGet rest p := by
  induction X with
  | nil => rfl
  | cons e X ih =>
    have he : (e.1 == p) = false := by
      simpa using hX e (List.mem_cons_self e X)
    simp only [heapGet, List.cons_append, List.find?, he]
    exact ih (fun e h => hX e (List.mem_cons_of_mem _ h))

theorem heapGet_cons_self (p : Nat) (o : Object) (rest : List (Nat × Object)) :
    heapGet ((p, o) :: rest) p = some o := by
  simp [heapGet, List.find?]

theorem heapSet_append (X Y : List (Nat × Object)) (p : Nat) (o : Object) :
    heapSet (X ++ Y) p o = heapSet X p o ++ heapSet Y p o := by
  simp [heapSet]

theorem heapSet_of_notin (X : List (Nat × Object)) (p : Nat) (o : Object)
    (hX : ∀ e ∈ X, e.1 ≠ p) : heapSet X p o = X := by
  induction X with
  | nil => rfl
  | cons e X ih =>
    have he : (e.1 == p) = false := by
      simpa using hX e (List.mem_cons_self e X)
    simp only [heapSet, List.map_cons, he, Bool.false_eq_true, if_false]
    exact congrArg (e :: ·) (ih (fun e h => hX e (List.mem_cons_of_mem _ h)))

theorem heapSet_cons_self (p : Nat) (o o' : Object) (rest : List (Nat × Object))
    (hrest : ∀ e ∈ rest, e.1 ≠ p) :
    heapSet ((p, o) :: rest) p o' = (p, o') :: rest := by
  simp only [heapSet, List.map_cons, beq_self_eq_true, if_true]
  exact congrArg ((p, o') :: ·) (heapSet_of_notin rest p o' hrest)

theorem heapRemove_append (X Y : List (Nat × Object)) (p : Nat) :
    heapRemove (X ++ Y) p = heapRemove X p ++ heapRemove Y p := by
  simp [heapRemove]

theorem heapRemove_of_notin (X : List (Nat × Object)) (p : Nat)
    (hX : ∀ e ∈ X, e.1 ≠ p) : heapRemove X p = X := by
  induction X with
  | nil => rfl
  | cons e X ih =>
    have he : (e.1 != p) = true := by
      simpa using hX e (List.mem_cons_self e X)
    simp only [heapRemove, List.filter_cons, he, if_true]
    exact congrArg (e :: ·) (ih (fun e h => hX e (List.mem_cons_of_mem _ h)))

theorem heapRemove_cons_self (p : Nat) (o : Object) (rest : List (Nat × Object))
    (hrest : ∀ e ∈ rest, e.1 ≠ p) :
    heapRemove ((p, o) :: rest) p = rest := by
  simp only [heapRemove, List.filter_cons, bne_self_eq_false, Bool.false_eq_true, if_false]
  exact heapRemove_of_notin rest p hrest

/-! ### Export reads back exactly the imported value -/

mutual
theorem exportHelper_imported (a : Nat) (v : Value) :
    ∀ fuel X Y, v.nodeCount ≤ fuel →
    (∀ e ∈ X, e.1 < a) →
    (∀ e ∈ Y, e.1 < a ∨ a + v.nodeCount ≤ e.1) →
    exportHelper fuel (X ++ importedEntries a v ++ Y) (a + v.nodeCount - 1) = some v := by
  intro fuel X Y hfuel hX hY
  have hpos := Value.nodeCount_pos v
  obtain ⟨f, rfl⟩ : ∃ f, fuel = f + 1 := ⟨fuel - 1, by omega⟩
  cases v with
  | int n =>
    have hget : heapGet (X ++ importedEntries a (.int n) ++ Y) a =
        some ⟨1, .int n⟩ := by
      rw [show X ++ importedEntries a (.int n) ++ Y = X ++ (((a, ⟨1, .int n⟩) :: Y) : List (Nat × Object))
        from by simp [importedEntries],
        heapGet_append_right_of X _ a (fun e he => by have := hX e he; omega),
        heapGet_cons_self]
    rw [show a + Value.nodeCount (.int n) - 1 = a from by simp [Value.nodeCount]]
    simp only [exportHelper]
    rw [hget]
    rfl
  | string s =>
    have hget : heapGet (X ++ importedEntries a (.string s) ++ Y) a =
        some ⟨1, .string s⟩ := by
      rw [show X ++ importedEntries a (.string s) ++ Y = X ++ (((a, ⟨1, .string s⟩) :: Y) : List (Nat × Object))
        from by simp [importedEntries],
        heapGet_append_right_of X _ a (fun e he => by have := hX e he; omega),
        heapGet_cons_self]
    rw [show a + Value.nodeCount (.string s) - 1 = a from by simp [Value.nodeCount]]
    simp only [exportHelper]
    rw [hget]
    rfl
  | symbol s =>
    have hget : heapGet (X ++ importedEntries a (.symbol s) ++ Y) a =
        some ⟨1, .symbol s⟩ := by
      rw [show X ++ importedEntries a (.symbol s) ++ Y = X ++ (((a, ⟨1, .symbol s⟩) :: Y) : List (Nat × Object))
        from by simp [importedEntries],
        heapGet_append_right_of X _ a (fun e he => by have := hX e he; omega),
        heapGet_cons_self]
    rw [show a + Value.nodeCount (.symbol s) - 1 = a from by simp [Value.nodeCount]]
    simp only [exportHelper]
    rw [hget]
    rfl
  | channelSendEnd id =>
    have hget : heapGet (X ++ importedEntries a (.channelSendEnd id) ++ Y) a =
        some ⟨1, .channelSendEnd id⟩ := by
      rw [show X ++ importedEntries a (.channelSendEnd id) ++ Y =
          X ++ (((a, ⟨1, .channelSendEnd id⟩) :: Y) : List (Nat × Object)) from by simp [importedEntries],
        heapGet_append_right_of X _ a (fun e he => by have := hX e he; omega),
        heapGet_cons_self]
    rw [show a + Value.nodeCount (.channelSendEnd id) - 1 = a from by simp [Value.nodeCount]]
    simp only [exportHelper]
    rw [hget]
    rfl
  | channelReceiveEnd id =>
    have hget : heapGet (X ++ importedEntries a (.channelReceiveEnd id) ++ Y) a =
        some ⟨1, .channelReceiveEnd id⟩ := by
      rw [show X ++ importedEntries a (.channelReceiveEnd id) ++ Y =
          X ++ (((a, ⟨1, .channelReceiveEnd id⟩) :: Y) : List (Nat × Object)) from by simp [importedEntries],
        heapGet_append_right_of X _ a (fun e he => by have := hX e he; omega),
        heapGet_cons_self]
    rw [show a + Value.nodeCount (.channelReceiveEnd id) - 1 = a from by simp [Value.nodeCount]]
    simp only [exportHelper]
    rw [hget]
    rfl
  | list items =>
    have hshape : X ++ importedEntries a (.list items) ++ Y =
        X ++ importedEntriesValues a items ++
          ((a + nodeCountValues items, ⟨1, .list (importedPtrs a items)⟩) :: Y) := by
      simp [importedEntries]
    have hroot : a + Value.nodeCount (.list items) - 1 = a + nodeCountValues items := by
      simp [Value.nodeCount]
    have hget : heapGet (X ++ importedEntriesValues a items ++
        ((a + nodeCountValues items, ⟨1, .list (importedPtrs a items)⟩) :: Y))
        (a + nodeCountValues items) = some ⟨1, .list (importedPtrs a items)⟩ := by
      rw [List.append_assoc,
        heapGet_append_right_of X _ _ (fun e he => by have := hX e he; omega),
        heapGet_append_right_of _ _ _ (fun e he => by
          have := (importedEntriesValues_facts a items).2 e he; omega),
        heapGet_cons_self]
    have hvals := exportValues_imported a items f X
      ((a + nodeCountValues items, ⟨1, .list (importedPtrs a items)⟩) :: Y)
      (by simp [Value.nodeCount] at hfuel; omega) hX
      (by
        intro e he
        rcases List.mem_cons.1 he with rfl | he
        · right; omega
        · rcases hY e he with h | h
          · left; exact h
          · right; simp [Value.nodeCount] at h; omega)
    rw [hshape, hroot]
    simp only [exportHelper]
    rw [hget]
    simp only [Option.bind_eq_bind, Option.some_bind, hvals]
  | map es =>
    have hshape : X ++ importedEntries a (.map es) ++ Y =
        X ++ importedEntriesPairs a es ++
          ((a + nodeCountPairs es, ⟨1, .map (importedPtrPairs a es)⟩) :: Y) := by
      simp [importedEntries]
    have hroot : a + Value.nodeCount (.map es) - 1 = a + nodeCountPairs es := by
      simp [Value.nodeCount]
    have hget : heapGet (X ++ importedEntriesPairs a es ++
        ((a + nodeCountPairs es, ⟨1, .map (importedPtrPairs a es)⟩) :: Y))
        (a + nodeCountPairs es) = some ⟨1, .map (importedPtrPairs a es)⟩ := by
      rw [List.append_assoc,
        heapGet_append_right_of X _ _ (fun e he => by have := hX e he; omega),
        heapGet_append_right_of _ _ _ (fun e he => by
          have := (importedEntriesPairs_facts a es).2 e he; omega),
        heapGet_cons_self]
    have hvals := exportPairs_imported a es f X
      ((a + nodeCountPairs es, ⟨1, .map (importedPtrPairs a es)⟩) :: Y)
      (by simp [Value.nodeCount] at hfuel; omega) hX
      (by
        intro e he
        rcases List.mem_cons.1 he with rfl | he
        · right; omega
        · rcases hY e he with h | h
          · left; exact h
          · right; simp [Value.nodeCount] at h; omega)
    rw [hshape, hroot]
    simp only [exportHelper]
    rw [hget]
    simp only [Option.bind_eq_bind, Option.some_bind, hvals]
  | closure cap body =>
    have hshape : X ++ importedEntries a (.closure cap body) ++ Y =
        X ++ importedEntriesValues a cap ++
          ((a + nodeCountValues cap, ⟨1, .closure (importedPtrs a cap) body⟩) :: Y) := by
      simp [importedEntries]
    have hroot : a + Value.nodeCount (.closure cap body) - 1 = a + nodeCountValues cap := by
      simp [Value.nodeCount]
    have hget : heapGet (X ++ importedEntriesValues a cap ++
        ((a + nodeCountValues cap, ⟨1, .closure (importedPtrs a cap) body⟩) :: Y))
        (a + nodeCountValues cap) = some ⟨1, .closure (importedPtrs a cap) body⟩ := by
      rw [List.append_assoc,
        heapGet_append_right_of X _ _ (fun e he => by have := hX e he; omega),
        heapGet_append_right_of _ _ _ (fun e he => by
          have := (importedEntriesValues_facts a cap).2 e he; omega),
        heapGet_cons_self]
    have hvals := exportValues_imported a cap f X
      ((a + nodeCountValues cap, ⟨1, .closure (importedPtrs a cap) body⟩) :: Y)
      (by simp [Value.nodeCount] at hfuel; omega) hX
      (by
        intro e he
        rcases List.mem_cons.1 he with rfl | he
        · right; omega
        · rcases hY e he with h | h
          · left; exact h
          · right; simp [Value.nodeCount] at h; omega)
    rw [hshape, hroot]
    simp only [exportHelper]
    rw [hget]
    simp only [Option.bind_eq_bind, Option.some_bind, hvals]
theorem exportValues_imported (a : Nat) (vs : List Value) :
    ∀ fuel X Y, nodeCountValues vs ≤ fuel →
    (∀ e ∈ X, e.1 < a) →
    (∀ e ∈ Y, e.1 < a ∨ a + nodeCountValues vs ≤ e.1) →
    exportValues fuel (X ++ importedEntriesValues a vs ++ Y) (importedPtrs a vs) =
      some vs := by
  intro fuel X Y hfuel hX hY
  cases vs with
  | nil => simp [exportValues, importedPtrs]
  | cons v rest =>
    have hshape : X ++ importedEntriesValues a (v :: rest) ++ Y =
        X ++ importedEntries a v ++
          (importedEntriesValues (a + v.nodeCount) rest ++ Y) := by
      simp [importedEntriesValues]
    have hv := exportHelper_imported a v fuel X
      (importedEntriesValues (a + v.nodeCount) rest ++ Y)
      (by simp [nodeCountValues] at hfuel; have := Value.nodeCount_pos v; omega) hX
      (by
        intro e he
        rcases List.mem_append.1 he with he | he
        · have := (importedEntriesValues_facts (a + v.nodeCount) rest).2 e he
          right; omega
        · rcases hY e he with h | h
          · left; exact h
          · right; simp [nodeCountValues] at h; omega)
    have hshape2 : X ++ importedEntries a v ++
        (importedEntriesValues (a + v.nodeCount) rest ++ Y) =
        (X ++ importedEntries a v) ++
          importedEntriesValues (a + v.nodeCount) rest ++ Y := by
      simp
    have hrest := exportValues_imported (a + v.nodeCount) rest fuel
      (X ++ importedEntries a v) Y
      (by simp [nodeCountValues] at hfuel; omega)
      (by
        intro e he
        rcases List.mem_append.1 he with he | he
        · have := hX e he; have := Value.nodeCount_pos v; omega
        · have := (importedEntries_facts a v).2 e he; omega)
      (by
        intro e he
        rcases hY e he with h | h
        · left; omega
        · right; simp [nodeCountValues] at h; omega)
    rw [hshape]
    simp only [importedPtrs, exportValues, hv, Option.bind_eq_bind, Option.some_bind]
    rw [hshape2, hrest]
    rfl
theorem exportPairs_imported (a : Nat) (es : List (Value × Value)) :
    ∀ fuel X Y, nodeCountPairs es ≤ fuel →
    (∀ e ∈ X, e.1 < a) →
    (∀ e ∈ Y, e.1 < a ∨ a + nodeCountPairs es ≤ e.1) →
    exportPairs fuel (X ++ importedEntriesPairs a es ++ Y) (importedPtrPairs a es) =
      some es := by
  intro fuel X Y hfuel hX hY
  cases es with
  | nil => simp [exportPairs, importedPtrPairs]
  | cons e rest =>
    have hk1 := Value.nodeCount_pos e.1
    have hk2 := Value.nodeCount_pos e.2
    have hshape : X ++ importedEntriesPairs a (e :: rest) ++ Y =
        X ++ importedEntries a e.1 ++
          (importedEntries (a + e.1.nodeCount) e.2 ++
            (importedEntriesPairs (a + e.1.nodeCount + e.2.nodeCount) rest ++ Y)) := by
      simp [importedEntriesPairs]
    have hkey := exportHelper_imported a e.1 fuel X
      (importedEntries (a + e.1.nodeCount) e.2 ++
        (importedEntriesPairs (a + e.1.nodeCount + e.2.nodeCount) rest ++ Y))
      (by simp [nodeCountPairs] at hfuel; omega) hX
      (by
        intro x hx
        rcases List.mem_append.1 hx with hx | hx
        · have := (importedEntries_facts (a + e.1.nodeCount) e.2).2 x hx
          right; omega
        · rcases List.mem_append.1 hx with hx | hx
          · have := (importedEntriesPairs_facts (a + e.1.nodeCount + e.2.nodeCount) rest).2 x hx
            right; omega
          · rcases hY x hx with h | h
            · left; exact h
            · right; simp [nodeCountPairs] at h; omega)
    have hshape2 : X ++ importedEntries a e.1 ++
        (importedEntries (a + e.1.nodeCount) e.2 ++
          (importedEntriesPairs (a + e.1.nodeCount + e.2.nodeCount) rest ++ Y)) =
        (X ++ importedEntries a e.1) ++ importedEntries (a + e.1.nodeCount) e.2 ++
          (importedEntriesPairs (a + e.1.nodeCount + e.2.nodeCount) rest ++ Y) := by
      simp
    have hval := exportHelper_imported (a + e.1.nodeCount) e.2 fuel
      (X ++ importedEntries a e.1)
      (importedEntriesPairs (a + e.1.nodeCount + e.2.nodeCount) rest ++ Y)
      (by simp [nodeCountPairs] at hfuel; omega)
      (by
        intro x hx
        rcases List.mem_append.1 hx with hx | hx
        · have := hX x hx; omega
        · have := (importedEntries_facts a e.1).2 x hx; omega)
      (by
        intro x hx
        rcases List.mem_append.1 hx with hx | hx
        · have := (importedEntriesPairs_facts (a + e.1.nodeCount + e.2.nodeCount) rest).2 x hx
          right; omega
        · rcases hY x hx with h | h
          · left; omega
          · right; simp [nodeCountPairs] at h; omega)
    have hshape3 : (X ++ importedEntries a e.1) ++ importedEntries (a + e.1.nodeCount) e.2 ++
        (importedEntriesPairs (a + e.1.nodeCount + e.2.nodeCount) rest ++ Y) =
        (X ++ importedEntries a e.1 ++ importedEntries (a + e.1.nodeCount) e.2) ++
          importedEntriesPairs (a + e.1.nodeCount + e.2.nodeCount) rest ++ Y := by
      simp
    have hrest := exportPairs_imported (a + e.1.nodeCount + e.2.nodeCount) rest fuel
      (X ++ importedEntries a e.1 ++ importedEntries (a + e.1.nodeCount) e.2) Y
      (by simp [nodeCountPairs] at hfuel; omega)
      (by
        intro x hx
        rcases List.mem_append.1 hx with hx | hx
        · rcases List.mem_append.1 hx with hx | hx
          · have := hX x hx; omega
          · have := (importedEntries_facts a e.1).2 x hx; omega
        · have := (importedEntries_facts (a + e.1.nodeCount) e.2).2 x hx; omega)
      (by
        intro x hx
        rcases hY x hx with h | h
        · left; omega
        · right; simp [nodeCountPairs] at h; omega)
    rw [hshape]
    simp only [importedPtrPairs, exportPairs, hkey, Option.bind_eq_bind, Option.some_bind]
    rw [hshape2, hval]
    simp only [Option.some_bind]
    rw [hshape3, hrest]
    rfl
end

/-! ### Dropping the imported root frees exactly the imported block -/

mutual
theorem dropPtr_imported (a : Nat) (v : Value) :
    ∀ fuel X Y, v.nodeCount ≤ fuel →
    (∀ e ∈ X, e.1 < a) →
    (∀ e ∈ Y, e.1 < a ∨ a + v.nodeCount ≤ e.1) →
    dropPtr fuel (X ++ importedEntries a v ++ Y) (a + v.nodeCount - 1) = some (X ++ Y) := by
  intro fuel X Y hfuel hX hY
  have hpos := Value.nodeCount_pos v
  obtain ⟨f, rfl⟩ : ∃ f, fuel = f + 1 := ⟨fuel - 1, by omega⟩
  have hYne : ∀ e ∈ Y, e.1 ≠ a + v.nodeCount - 1 := by
    intro e he; rcases hY e he with h | h <;> omega
  have hXne : ∀ e ∈ X, e.1 ≠ a + v.nodeCount - 1 := by
    intro e he; have := hX e he; omega
  cases v with
  | int n =>
    have hshape : X ++ importedEntries a (.int n) ++ Y =
        X ++ (((a, ⟨1, .int n⟩) :: Y) : List (Nat × Object)) := by
      simp [importedEntries]
    rw [hshape, show a + Value.nodeCount (.int n) - 1 = a from by simp [Value.nodeCount]]
    have hset : heapSet (X ++ ((a, ⟨1, .int n⟩) :: Y)) a ⟨0, .int n⟩ =
        X ++ ((a, (⟨0, .int n⟩ : Object)) :: Y) := by
      rw [heapSet_append, heapSet_of_notin X _ _ (fun e he => by have := hX e he; omega),
        heapSet_cons_self _ _ _ _ (fun e he => by
          rcases hY e he with h | h
          · omega
          · simp [Value.nodeCount] at h; omega)]
    have hrem : heapRemove (X ++ ((a, (⟨0, .int n⟩ : Object)) :: Y)) a = X ++ Y := by
      rw [heapRemove_append, heapRemove_of_notin X _ (fun e he => by have := hX e he; omega),
        heapRemove_cons_self _ _ _ (fun e he => by
          rcases hY e he with h | h
          · omega
          · simp [Value.nodeCount] at h; omega)]
    have hget : heapGet (X ++ ((a, (⟨1, .int n⟩ : Object)) :: Y)) a = some ⟨1, .int n⟩ := by
      rw [heapGet_append_right_of X _ a (fun e he => by have := hX e he; omega),
        heapGet_cons_self]
    simp [dropPtr, hget, hset, hrem]
  | string s =>
    have hshape : X ++ importedEntries a (.string s) ++ Y =
        X ++ (((a, ⟨1, .string s⟩) :: Y) : List (Nat × Object)) := by
      simp [importedEntries]
    rw [hshape, show a + Value.nodeCount (.string s) - 1 = a from by simp [Value.nodeCount]]
    have hset : heapSet (X ++ ((a, ⟨1, .string s⟩) :: Y)) a ⟨0, .string s⟩ =
        X ++ ((a, (⟨0, .string s⟩ : Object)) :: Y) := by
      rw [heapSet_append, heapSet_of_notin X _ _ (fun e he => by have := hX e he; omega),
        heapSet_cons_self _ _ _ _ (fun e he => by
          rcases hY e he with h | h
          · omega
          · simp [Value.nodeCount] at h; omega)]
    have hrem : heapRemove (X ++ ((a, (⟨0, .string s⟩ : Object)) :: Y)) a = X ++ Y := by
      rw [heapRemove_append, heapRemove_of_notin X _ (fun e he => by have := hX e he; omega),
        heapRemove_cons_self _ _ _ (fun e he => by
          rcases hY e he with h | h
          · omega
          · simp [Value.nodeCount] at h; omega)]
    have hget : heapGet (X ++ ((a, (⟨1, .string s⟩ : Object)) :: Y)) a = some ⟨1, .string s⟩ := by
      rw [heapGet_append_right_of X _ a (fun e he => by have := hX e he; omega),
        heapGet_cons_self]
    simp [dropPtr, hget, hset, hrem]
  | symbol s =>
    have hshape : X ++ importedEntries a (.symbol s) ++ Y =
        X ++ (((a, ⟨1, .symbol s⟩) :: Y) : List (Nat × Object)) := by
      simp [importedEntries]
    rw [hshape, show a + Value.nodeCount (.symbol s) - 1 = a from by simp [Value.nodeCount]]
    have hset : heapSet (X ++ ((a, ⟨1, .symbol s⟩) :: Y)) a ⟨0, .symbol s⟩ =
        X ++ ((a, (⟨0, .symbol s⟩ : Object)) :: Y) := by
      rw [heapSet_append, heapSet_of_notin X _ _ (fun e he => by have := hX e he; omega),
        heapSet_cons_self _ _ _ _ (fun e he => by
          rcases hY e he with h | h
          · omega
          · simp [Value.nodeCount] at h; omega)]
    have hrem : heapRemove (X ++ ((a, (⟨0, .symbol s⟩ : Object)) :: Y)) a = X ++ Y := by
      rw [heapRemove_append, heapRemove_of_notin X _ (fun e he => by have := hX e he; omega),
        heapRemove_cons_self _ _ _ (fun e he => by
          rcases hY e he with h | h
          · omega
          · simp [Value.nodeCount] at h; omega)]
    have hget : heapGet (X ++ ((a, (⟨1, .symbol s⟩ : Object)) :: Y)) a = some ⟨1, .symbol s⟩ := by
      rw [heapGet_append_right_of X _ a (fun e he => by have := hX e he; omega),
        heapGet_cons_self]
    simp [dropPtr, hget, hset, hrem]
  | channelSendEnd id =>
    have hshape : X ++ importedEntries a (.channelSendEnd id) ++ Y =
        X ++ (((a, ⟨1, .channelSendEnd id⟩) :: Y) : List (Nat × Object)) := by
      simp [importedEntries]
    rw [hshape,
      show a + Value.nodeCount (.channelSendEnd id) - 1 = a from by simp [Value.nodeCount]]
    have hset : heapSet (X ++ ((a, ⟨1, .channelSendEnd id⟩) :: Y)) a ⟨0, .channelSendEnd id⟩ =
        X ++ ((a, (⟨0, .channelSendEnd id⟩ : Object)) :: Y) := by
      rw [heapSet_append, heapSet_of_notin X _ _ (fun e he => by have := hX e he; omega),
        heapSet_cons_self _ _ _ _ (fun e he => by
          rcases hY e he with h | h
          · omega
          · simp [Value.nodeCount] at h; omega)]
    have hrem : heapRemove (X ++ ((a, (⟨0, .channelSendEnd id⟩ : Object)) :: Y)) a = X ++ Y := by
      rw [heapRemove_append, heapRemove_of_notin X _ (fun e he => by have := hX e he; omega),
        heapRemove_cons_self _ _ _ (fun e he => by
          rcases hY e he with h | h
          · omega
          · simp [Value.nodeCount] at h; omega)]
    have hget : heapGet (X ++ ((a, (⟨1, .channelSendEnd id⟩ : Object)) :: Y)) a =
        some ⟨1, .channelSendEnd id⟩ := by
      rw [heapGet_append_right_of X _ a (fun e he => by have := hX e he; omega),
        heapGet_cons_self]
    simp [dropPtr, hget, hset, hrem]
  | channelReceiveEnd id =>
    have hshape : X ++ importedEntries a (.channelReceiveEnd id) ++ Y =
        X ++ (((a, ⟨1, .channelReceiveEnd id⟩) :: Y) : List (Nat × Object)) := by
      simp [importedEntries]
    rw [hshape,
      show a + Value.nodeCount (.channelReceiveEnd id) - 1 = a from by simp [Value.nodeCount]]
    have hset : heapSet (X ++ ((a, ⟨1, .channelReceiveEnd id⟩) :: Y)) a
        ⟨0, .channelReceiveEnd id⟩ =
        X ++ ((a, (⟨0, .channelReceiveEnd id⟩ : Object)) :: Y) := by
      rw [heapSet_append, heapSet_of_notin X _ _ (fun e he => by have := hX e he; omega),
        heapSet_cons_self _ _ _ _ (fun e he => by
          rcases hY e he with h | h
          · omega
          · simp [Value.nodeCount] at h; omega)]
    have hrem : heapRemove (X ++ ((a, (⟨0, .channelReceiveEnd id⟩ : Object)) :: Y)) a =
        X ++ Y := by
      rw [heapRemove_append, heapRemove_of_notin X _ (fun e he => by have := hX e he; omega),
        heapRemove_cons_self _ _ _ (fun e he => by
          rcases hY e he with h | h
          · omega
          · simp [Value.nodeCount] at h; omega)]
    have hget : heapGet (X ++ ((a, (⟨1, .channelReceiveEnd id⟩ : Object)) :: Y)) a =
        some ⟨1, .channelReceiveEnd id⟩ := by
      rw [heapGet_append_right_of X _ a (fun e he => by have := hX e he; omega),
        heapGet_cons_self]
    simp [dropPtr, hget, hset, hrem]
  | list items =>
    have hEfacts := (importedEntriesValues_facts a items).2
    have hshape : X ++ importedEntries a (.list items) ++ Y =
        X ++ importedEntriesValues a items ++
          ((a + nodeCountValues items, ⟨1, .list (importedPtrs a items)⟩) :: Y) := by
      simp [importedEntries]
    rw [hshape, show a + Value.nodeCount (.list items) - 1 = a + nodeCountValues items
      from by simp [Value.nodeCount]]
    have hYne2 : ∀ e ∈ Y, e.1 ≠ a + nodeCountValues items := by
      intro e he
      rcases hY e he with h | h
      · omega
      · simp [Value.nodeCount] at h; omega
    have hget : heapGet (X ++ importedEntriesValues a items ++
        ((a + nodeCountValues items, ⟨1, .list (importedPtrs a items)⟩) :: Y))
        (a + nodeCountValues items) = some ⟨1, .list (importedPtrs a items)⟩ := by
      rw [List.append_assoc,
        heapGet_append_right_of X _ _ (fun e he => by have := hX e he; omega),
        heapGet_append_right_of _ _ _ (fun e he => by have := hEfacts e he; omega),
        heapGet_cons_self]
    have hset : heapSet (X ++ importedEntriesValues a items ++
        ((a + nodeCountValues items, ⟨1, .list (importedPtrs a items)⟩) :: Y))
        (a + nodeCountValues items) ⟨0, .list (importedPtrs a items)⟩ =
        X ++ importedEntriesValues a items ++
          ((a + nodeCountValues items, (⟨0, .list (importedPtrs a items)⟩ : Object)) :: Y) := by
      rw [heapSet_append, heapSet_append,
        heapSet_of_notin X _ _ (fun e he => by have := hX e he; omega),
        heapSet_of_notin _ _ _ (fun e he => by have := hEfacts e he; omega),
        heapSet_cons_self _ _ _ _ hYne2]
    have hdrop := dropPtrs_imported a items f X
      ((a + nodeCountValues items, (⟨0, .list (importedPtrs a items)⟩ : Object)) :: Y)
      (by simp [Value.nodeCount] at hfuel; omega) hX
      (by
        intro e he
        rcases List.mem_cons.1 he with rfl | he
        · right; omega
        · rcases hY e he with h | h
          · left; exact h
          · right; simp [Value.nodeCount] at h; omega)
    have hrem : heapRemove (X ++
        ((a + nodeCountValues items, (⟨0, .list (importedPtrs a items)⟩ : Object)) :: Y))
        (a + nodeCountValues items) = X ++ Y := by
      rw [heapRemove_append, heapRemove_of_notin X _ (fun e he => by have := hX e he; omega),
        heapRemove_cons_self _ _ _ hYne2]
    simp only [dropPtr]
    rw [hget]
    simp only [Option.bind_eq_bind, Option.some_bind]
    rw [show (1 : Nat) - 1 = 0 from rfl]
    simp only [reduceIte]
    rw [hset, hdrop]
    simp only [Option.some_bind]
    rw [hrem]
  | map es =>
    have hEfacts := (importedEntriesPairs_facts a es).2
    have hshape : X ++ importedEntries a (.map es) ++ Y =
        X ++ importedEntriesPairs a es ++
          ((a + nodeCountPairs es, ⟨1, .map (importedPtrPairs a es)⟩) :: Y) := by
      simp [importedEntries]
    rw [hshape, show a + Value.nodeCount (.map es) - 1 = a + nodeCountPairs es
      from by simp [Value.nodeCount]]
    have hYne2 : ∀ e ∈ Y, e.1 ≠ a + nodeCountPairs es := by
      intro e he
      rcases hY e he with h | h
      · omega
      · simp [Value.nodeCount] at h; omega
    have hget : heapGet (X ++ importedEntriesPairs a es ++
        ((a + nodeCountPairs es, ⟨1, .map (importedPtrPairs a es)⟩) :: Y))
        (a + nodeCountPairs es) = some ⟨1, .map (importedPtrPairs a es)⟩ := by
      rw [List.append_assoc,
        heapGet_append_right_of X _ _ (fun e he => by have := hX e he; omega),
        heapGet_append_right_of _ _ _ (fun e he => by have := hEfacts e he; omega),
        heapGet_cons_self]
    have hset : heapSet (X ++ importedEntriesPairs a es ++
        ((a + nodeCountPairs es, ⟨1, .map (importedPtrPairs a es)⟩) :: Y))
        (a + nodeCountPairs es) ⟨0, .map (importedPtrPairs a es)⟩ =
        X ++ importedEntriesPairs a es ++
          ((a + nodeCountPairs es, (⟨0, .map (importedPtrPairs a es)⟩ : Object)) :: Y) := by
      rw [heapSet_append, heapSet_append,
        heapSet_of_notin X _ _ (fun e he => by have := hX e he; omega),
        heapSet_of_notin _ _ _ (fun e he => by have := hEfacts e he; omega),
        heapSet_cons_self _ _ _ _ hYne2]
    have hdrop := dropPairs_imported a es f X
      ((a + nodeCountPairs es, (⟨0, .map (importedPtrPairs a es)⟩ : Object)) :: Y)
      (by simp [Value.nodeCount] at hfuel; omega) hX
      (by
        intro e he
        rcases List.mem_cons.1 he with rfl | he
        · right; omega
        · rcases hY e he with h | h
          · left; exact h
          · right; simp [Value.nodeCount] at h; omega)
    have hrem : heapRemove (X ++
        ((a + nodeCountPairs es, (⟨0, .map (importedPtrPairs a es)⟩ : Object)) :: Y))
        (a + nodeCountPairs es) = X ++ Y := by
      rw [heapRemove_append, heapRemove_of_notin X _ (fun e he => by have := hX e he; omega),
        heapRemove_cons_self _ _ _ hYne2]
    simp only [dropPtr]
    rw [hget]
    simp only [Option.bind_eq_bind, Option.some_bind]
    rw [show (1 : Nat) - 1 = 0 from rfl]
    simp only [reduceIte]
    rw [hset, hdrop]
    simp only [Option.some_bind]
    rw [hrem]
  | closure cap body =>
    have hEfacts := (importedEntriesValues_facts a cap).2
    have hshape : X ++ importedEntries a (.closure cap body) ++ Y =
        X ++ importedEntriesValues a cap ++
          ((a + nodeCountValues cap, ⟨1, .closure (importedPtrs a cap) body⟩) :: Y) := by
      simp [importedEntries]
    rw [hshape, show a + Value.nodeCount (.closure cap body) - 1 = a + nodeCountValues cap
      from by simp [Value.nodeCount]]
    have hYne2 : ∀ e ∈ Y, e.1 ≠ a + nodeCountValues cap := by
      intro e he
      rcases hY e he with h | h
      · omega
      · simp [Value.nodeCount] at h; omega
    have hget : heapGet (X ++ importedEntriesValues a cap ++
        ((a + nodeCountValues cap, ⟨1, .closure (importedPtrs a cap) body⟩) :: Y))
        (a + nodeCountValues cap) = some ⟨1, .closure (importedPtrs a cap) body⟩ := by
      rw [List.append_assoc,
        heapGet_append_right_of X _ _ (fun e he => by have := hX e he; omega),
        heapGet_append_right_of _ _ _ (fun e he => by have := hEfacts e he; omega),
        heapGet_cons_self]
    have hset : heapSet (X ++ importedEntriesValues a cap ++
        ((a + nodeCountValues cap, ⟨1, .closure (importedPtrs a cap) body⟩) :: Y))
        (a + nodeCountValues cap) ⟨0, .closure (importedPtrs a cap) body⟩ =
        X ++ importedEntriesValues a cap ++
          ((a + nodeCountValues cap,
            (⟨0, .closure (importedPtrs a cap) body⟩ : Object)) :: Y) := by
      rw [heapSet_append, heapSet_append,
        heapSet_of_notin X _ _ (fun e he => by have := hX e he; omega),
        heapSet_of_notin _ _ _ (fun e he => by have := hEfacts e he; omega),
        heapSet_cons_self _ _ _ _ hYne2]
    have hdrop := dropPtrs_imported a cap f X
      ((a + nodeCountValues cap, (⟨0, .closure (importedPtrs a cap) body⟩ : Object)) :: Y)
      (by simp [Value.nodeCount] at hfuel; omega) hX
      (by
        intro e he
        rcases List.mem_cons.1 he with rfl | he
        · right; omega
        · rcases hY e he with h | h
          · left; exact h
          · right; simp [Value.nodeCount] at h; omega)
    have hrem : heapRemove (X ++
        ((a + nodeCountValues cap,
          (⟨0, .closure (importedPtrs a cap) body⟩ : Object)) :: Y))
        (a + nodeCountValues cap) = X ++ Y := by
      rw [heapRemove_append, heapRemove_of_notin X _ (fun e he => by have := hX e he; omega),
        heapRemove_cons_self _ _ _ hYne2]
    simp only [dropPtr]
    rw [hget]
    simp only [Option.bind_eq_bind, Option.some_bind]
    rw [show (1 : Nat) - 1 = 0 from rfl]
    simp only [reduceIte]
    rw [hset, hdrop]
    simp only [Option.some_bind]
    rw [hrem]
theorem dropPtrs_imported (a : Nat) (vs : List Value) :
    ∀ fuel X Y, nodeCountValues vs ≤ fuel →
    (∀ e ∈ X, e.1 < a) →
    (∀ e ∈ Y, e.1 < a ∨ a + nodeCountValues vs ≤ e.1) →
    dropPtrs fuel (X ++ importedEntriesValues a vs ++ Y) (importedPtrs a vs) =
      some (X ++ Y) := by
  intro fuel X Y hfuel hX hY
  cases vs with
  | nil => simp [dropPtrs, importedPtrs, importedEntriesValues]
  | cons v rest =>
    have hshape : X ++ importedEntriesValues a (v :: rest) ++ Y =
        X ++ importedEntries a v ++
          (importedEntriesValues (a + v.nodeCount) rest ++ Y) := by
      simp [importedEntriesValues]
    have hv := dropPtr_imported a v fuel X
      (importedEntriesValues (a + v.nodeCount) rest ++ Y)
      (by simp [nodeCountValues] at hfuel; have := Value.nodeCount_pos v; omega) hX
      (by
        intro e he
        rcases List.mem_append.1 he with he | he
        · have := (importedEntriesValues_facts (a + v.nodeCount) rest).2 e he
          right; omega
        · rcases hY e he with h | h
          · left; exact h
          · right; simp [nodeCountValues] at h; omega)
    have hrest := dropPtrs_imported (a + v.nodeCount) rest fuel X Y
      (by simp [nodeCountValues] at hfuel; omega)
      (by intro e he; have := hX e he; have := Value.nodeCount_pos v; omega)
      (by
        intro e he
        rcases hY e he with h | h
        · left; have := Value.nodeCount_pos v; omega
        · right; simp [nodeCountValues] at h; omega)
    rw [hshape]
    simp only [importedPtrs, dropPtrs, Option.bind_eq_bind]
    rw [hv]
    simp only [Option.some_bind]
    rw [show X ++ (importedEntriesValues (a + v.nodeCount) rest ++ Y) =
      X ++ importedEntriesValues (a + v.nodeCount) rest ++ Y from by simp, hrest]
theorem dropPairs_imported (a : Nat) (es : List (Value × Value)) :
    ∀ fuel X Y, nodeCountPairs es ≤ fuel →
    (∀ e ∈ X, e.1 < a) →
    (∀ e ∈ Y, e.1 < a ∨ a + nodeCountPairs es ≤ e.1) →
    dropPairs fuel (X ++ importedEntriesPairs a es ++ Y) (importedPtrPairs a es) =
      some (X ++ Y) := by
  intro fuel X Y hfuel hX hY
  cases es with
  | nil => simp [dropPairs, importedPtrPairs, importedEntriesPairs]
  | cons e rest =>
    have hk1 := Value.nodeCount_pos e.1
    have hk2 := Value.nodeCount_pos e.2
    have hshape : X ++ importedEntriesPairs a (e :: rest) ++ Y =
        X ++ importedEntries a e.1 ++
          (importedEntries (a + e.1.nodeCount) e.2 ++
            (importedEntriesPairs (a + e.1.nodeCount + e.2.nodeCount) rest ++ Y)) := by
      simp [importedEntriesPairs]
    have hkey := dropPtr_imported a e.1 fuel X
      (importedEntries (a + e.1.nodeCount) e.2 ++
        (importedEntriesPairs (a + e.1.nodeCount + e.2.nodeCount) rest ++ Y))
      (by simp [nodeCountPairs] at hfuel; omega) hX
      (by
        intro x hx
        rcases List.mem_append.1 hx with hx | hx
        · have := (importedEntries_facts (a + e.1.nodeCount) e.2).2 x hx
          right; omega
        · rcases List.mem_append.1 hx with hx | hx
          · have := (importedEntriesPairs_facts (a + e.1.nodeCount + e.2.nodeCount) rest).2 x hx
            right; omega
          · rcases hY x hx with h | h
            · left; exact h
            · right; simp [nodeCountPairs] at h; omega)
    have hval := dropPtr_imported (a + e.1.nodeCount) e.2 fuel X
      (importedEntriesPairs (a + e.1.nodeCount + e.2.nodeCount) rest ++ Y)
      (by simp [nodeCountPairs] at hfuel; omega)
      (by intro x hx; have := hX x hx; omega)
      (by
        intro x hx
        rcases List.mem_append.1 hx with hx | hx
        · have := (importedEntriesPairs_facts (a + e.1.nodeCount + e.2.nodeCount) rest).2 x hx
          right; omega
        · rcases hY x hx with h | h
          · left; omega
          · right; simp [nodeCountPairs] at h; omega)
    have hrest := dropPairs_imported (a + e.1.nodeCount + e.2.nodeCount) rest fuel X Y
      (by simp [nodeCountPairs] at hfuel; omega)
      (by intro x hx; have := hX x hx; omega)
      (by
        intro x hx
        rcases hY x hx with h | h
        · left; omega
        · right; simp [nodeCountPairs] at h; omega)
    rw [hshape]
    simp only [importedPtrPairs, dropPairs, Option.bind_eq_bind]
    rw [hkey]
    simp only [Option.some_bind]
    rw [show X ++ (importedEntries (a + e.1.nodeCount) e.2 ++
        (importedEntriesPairs (a + e.1.nodeCount + e.2.nodeCount) rest ++ Y)) =
      X ++ importedEntries (a + e.1.nodeCount) e.2 ++
        (importedEntriesPairs (a + e.1.nodeCount + e.2.nodeCount) rest ++ Y) from by simp,
      hval]
    simp only [Option.some_bind]
    rw [show X ++ (importedEntriesPairs (a + e.1.nodeCount + e.2.nodeCount) rest ++ Y) =
      X ++ importedEntriesPairs (a + e.1.nodeCount + e.2.nodeCount) rest ++ Y from by simp,
      hrest]
end

/-- C6: importing a value into a fiber heap whose pointers are all below
the next free address appends exactly one object per node of the value
tree, every appended object starts with reference count 1, and exporting
the returned pointer (which reads the value back and then drops the
pointer) yields exactly the value again, with the heap as it was before
the import (the next free address alone has advanced). -/
theorem import_export_roundtrip (st : FiberHeap) (v : Value)
    (hfresh : ∀ e ∈ st.heap, e.1 < st.nextHeapAddress) :
    (importValue st v).1.heap =
      st.heap ++ importedEntries st.nextHeapAddress v ∧
    (importValue st v).1.heap.length = st.heap.length + v.nodeCount ∧
    (∀ e ∈ importedEntries st.nextHeapAddress v, e.2.referenceCount = 1) ∧
    exportValue v.nodeCount (importValue st v).1 (importValue st v).2 =
      some (v, ⟨st.heap, st.nextHeapAddress + v.nodeCount⟩) := by
  cases st with
  | mk h a =>
  simp only at hfresh
  have him := importValue_eq h a v
  obtain ⟨hlen, hmem⟩ := importedEntries_facts a v
  have hexp := exportHelper_imported a v v.nodeCount h [] le_rfl hfresh (by simp)
  have hdrop := dropPtr_imported a v v.nodeCount h [] le_rfl hfresh (by simp)
  simp only [List.append_nil] at hexp hdrop
  rw [him]
  refine ⟨rfl, ?_, fun e he => (hmem e he).2.2, ?_⟩
  · simp [List.length_append, hlen]
  · simp [exportValue, hexp, hdrop]

/-- Witness for C6 at a concrete value and empty heap: importing a
two-element list and exporting the returned pointer gives the value back
and restores the empty heap. -/
theorem import_export_roundtrip_witness :
    exportValue (Value.nodeCount (.list [.int 5, .symbol "hi"]))
      (importValue ⟨[], 0⟩ (.list [.int 5, .symbol "hi"])).1
      (importValue ⟨[], 0⟩ (.list [.int 5, .symbol "hi"])).2 =
      some (.list [.int 5, .symbol "hi"],
        ⟨[], 0 + Value.nodeCount (.list [.int 5, .symbol "hi"])⟩) :=
  (import_export_roundtrip ⟨[], 0⟩ (.list [.int 5, .symbol "hi"]) (by simp)).2.2.2

/-! ## Fiber primitives (src/interpreter/src/vm/fiber.rs:387-560,
src/interpreter/src/vm/utils.rs, src/interpreter/src/utils.rs) -/

/-- Fiber status (fiber.rs `FiberStatus`). -/
inductive FiberStatus where
  | running
  | done (v : Value)
  | panicked (v : Value)
  | creatingChannel (capacity : Nat)
  | sending (id : Nat) (v : Value)
  | receiving (id : Nat)

/-- Rust `Value::int`. -/
def Value.int? : Value → Option Int
  | .int n => some n
  | _ => none

/-- Rust `Value::symbol`. -/
def Value.symbol? : Value → Option String
  | .symbol s => some s
  | _ => none

/-- Rust `Value::list`. -/
def Value.list? : Value → Option (List Value)
  | .list l => some l
  | _ => none

/-- Rust `Value::channel_send_end`. -/
def Value.channelSendEnd? : Value → Option Nat
  | .channelSendEnd id => some id
  | _ => none

/-- Rust `Value::channel_receive_end`. -/
def Value.channelReceiveEnd? : Value → Option Nat
  | .channelReceiveEnd id => some id
  | _ => none

/-- Rust `DestructureTuple::tuple2` (utils.rs): the two elements of a
two-element list, `None` otherwise. -/
def tuple2 {α : Type} : List α → Option (α × α)
  | [a, b] => some (a, b)
  | _ => none

/-- Rust trait `Needed`: turn an `Option` into a `Result` with the given
error message. -/
def needed {α : Type} (o : Option α) (message : String) : Except String α :=
  match o with
  | some a => .ok a
  | none => .error message

mutual
/-- Rust `impl Display for Value` (vm/utils.rs:79-109).  The `{:?}` debug
formatting of strings is modelled as plain quoting (its escaping of
special characters is not); the map iteration order is the model's list
order. -/
def Value.display : Value → String
  | .int n => toString n
  | .string s => "\"" ++ s ++ "\""
  | .symbol s => ":" ++ s
  | .map es => "\x7b" ++ displayPairs es ++ "\x7d"
  | .list items => "(" ++ displayItems items ++ ")"
  | .closure _ _ => "<closure>"
  | .channelSendEnd id => "<send end for channel " ++ toString id ++ ">"
  | .channelReceiveEnd id => "<receive end for channel " ++ toString id ++ ">"
/-- Map entries joined with a comma, as `Display` does. -/
def displayPairs : List (Value × Value) → String
  | [] => ""
  | [e] => e.1.display ++ ", " ++ e.2.display
  | e :: rest => e.1.display ++ ", " ++ e.2.display ++ ", " ++ displayPairs rest
/-- List items joined with a comma, as `Display` does. -/
def displayItems : List Value → String
  | [] => ""
  | [v] => v.display
  | v :: rest => v.display ++ ", " ++ displayItems rest
end

/-- Rust `Fiber::primitive_add`. -/
def primitiveAdd (arg : Value) : Except String Value := do
  let list ← needed arg.list? "add needs a list"
  let ints ← list.mapM (fun item =>
    needed item.int? "add needs a list that contains only numbers")
  .ok (.int (ints.foldl (· + ·) 0))

/-- Rust `Fiber::primitive_get_item`.  The index bound check mirrors
`index < 0 || index >= list.len() as i64`. -/
def primitiveGetItem (arg : Value) : Except String Value := do
  let list ← needed arg.list? "get-item needs a list"
  let p ← needed (tuple2 list) "get-item needs a list with two values"
  let l ← needed p.1.list? "get-item needs a list with a list and an index"
  let index ← needed p.2.int? "get-item needs a list with a list and an index"
  if h : index < 0 ∨ (l.length : Int) ≤ index then
    .error ("get-item received list " ++ Value.display (.list l) ++ " and index " ++
      toString index ++ ", so the index is out of bounds")
  else
    .ok (l.get ⟨index.toNat, by omega⟩)

/-- Rust `Fiber::primitive_get_ambient`; the ambients map is an
association list. -/
def primitiveGetAmbient (ambients : List (String × Value)) (arg : Value) :
    Except String Value := do
  let symbol ← needed arg.symbol? "GetAmbient needs a symbol."
  needed ((ambients.find? (fun e => e.1 == symbol)).map (·.2))
    ("No ambient named " ++ symbol ++ " exists.")

/-- Rust `Fiber::primitive_create_channel`; `capacity as u64` wraps a
negative `i64` into the `u64` range. -/
def primitiveCreateChannel (arg : Value) : Except String FiberStatus := do
  let capacity ← needed arg.int? "CreateChannel needs an int."
  .ok (.creatingChannel (capacity % 2 ^ 64).toNat)

/-- Rust `Fiber::primitive_send`. -/
def primitiveSend (arg : Value) : Except String FiberStatus := do
  let list ← needed arg.list? "Send needs a list."
  let p ← needed (tuple2 list)
    "Send called with a list that has a different number than 2 elements."
  let channelEnd ← needed p.1.channelSendEnd?
    "Send called with a list where the first item is not a ChannelSendEnd."
  .ok (.sending channelEnd p.2)

/-- Rust `Fiber::primitive_receive`. -/
def primitiveReceive (arg : Value) : Except String FiberStatus := do
  let channelEnd ← needed arg.channelReceiveEnd?
    "Receive called, but the argument is not a ChannelReceiveEnd."
  .ok (.receiving channelEnd)

/-- Rust `split_kind_and_arg` inside `Fiber::run_instruction`. -/
def splitKindAndArg (arg : Value) : Except String (PrimitiveKind × Value) := do
  let list ← needed arg.list? "Primitive called with a non-list."
  let p ← needed (tuple2 list)
    "Primitive called with a list that doesn't contain 2 items."
  let symbol ← needed p.1.symbol?
    "Primitive called, but the first argument is not a symbol."
  let kind ← needed (PrimitiveKind.parse symbol) ("Unknown primitive " ++ symbol ++ ".")
  .ok (kind, p.2)

/-- Rust `wrong_usage_panic_status`. -/
def wrongUsagePanicStatus (message : String) : FiberStatus :=
  .panicked (.list [.symbol "wrong-usage", .string message])

/-- The `Instruction::Primitive` arm of `Fiber::run_instruction`
(fiber.rs:387-438), modelled from the point where the argument has been
popped and exported: given the instruction's optional kind and the
exported argument value, it returns the fiber's new status (the fiber was
`Running`) and the value that gets imported and pushed on the stack, if
any.  On any error nothing is pushed and the status becomes the
wrong-usage panic. -/
def runPrimitiveInstruction (ambients : List (String × Value))
    (kind : Option PrimitiveKind) (arg : Value) : FiberStatus × Option Value :=
  match (match kind with
         | some k => Except.ok (k, arg)
         | none => splitKindAndArg arg) with
  | .error e => (wrongUsagePanicStatus e, none)
  | .ok (k, arg) =>
    match k with
    | .add =>
      match primitiveAdd arg with
      | .ok v => (.running, some v)
      | .error m => (wrongUsagePanicStatus m, none)
    | .getItem =>
      match primitiveGetItem arg with
      | .ok v => (.running, some v)
      | .error m => (wrongUsagePanicStatus m, none)
    | .getAmbient =>
      match primitiveGetAmbient ambients arg with
      | .ok v => (.running, some v)
      | .error m => (wrongUsagePanicStatus m, none)
    | .panic => (.panicked arg, none)
    | .createChannel =>
      match primitiveCreateChannel arg with
      | .ok st => (st, none)
      | .error m => (wrongUsagePanicStatus m, none)
    | .send =>
      match primitiveSend arg with
      | .ok st => (st, none)
      | .error m => (wrongUsagePanicStatus m, none)
    | .receive =>
      match primitiveReceive arg with
      | .ok st => (st, none)
      | .error m => (wrongUsagePanicStatus m, none)

theorem tuple2_eq_none {α : Type} (l : List α) (h : l.length ≠ 2) :
    tuple2 l = none := by
  match l with
  | [] => rfl
  | [_] => rfl
  | [_, _] => simp at h
  | _ :: _ :: _ :: _ => rfl

/-- C7: every enumerated argument-shape violation of a Primitive
instruction — a non-list or wrong-arity argument, a non-symbol tag or an
unknown name for an unspecialized primitive, an out-of-bounds index for
GetItem, an absent name for GetAmbient, a non-int capacity for
CreateChannel, a wrong end type for Send or Receive — makes the fiber's
status `Panicked(List(Symbol "wrong-usage", String message))` and pushes
no value on the stack. -/
theorem primitive_shape_violations (ambients : List (String × Value)) :
    (∀ arg : Value, arg.list? = none → ∃ m,
      runPrimitiveInstruction ambients none arg = (wrongUsagePanicStatus m, none)) ∧
    (∀ items : List Value, items.length ≠ 2 → ∃ m,
      runPrimitiveInstruction ambients none (.list items) =
        (wrongUsagePanicStatus m, none)) ∧
    (∀ x y : Value, x.symbol? = none → ∃ m,
      runPrimitiveInstruction ambients none (.list [x, y]) =
        (wrongUsagePanicStatus m, none)) ∧
    (∀ (s : String) (y : Value), PrimitiveKind.parse s = none → ∃ m,
      runPrimitiveInstruction ambients none (.list [.symbol s, y]) =
        (wrongUsagePanicStatus m, none)) ∧
    (∀ arg : Value, arg.list? = none → ∃ m,
      runPrimitiveInstruction ambients (some .add) arg =
        (wrongUsagePanicStatus m, none)) ∧
    (∀ arg : Value, arg.list? = none → ∃ m,
      runPrimitiveInstruction ambients (some .getItem) arg =
        (wrongUsagePanicStatus m, none)) ∧
    (∀ (l : List Value) (idx : Int), idx < 0 ∨ (l.length : Int) ≤ idx → ∃ m,
      runPrimitiveInstruction ambients (some .getItem) (.list [.list l, .int idx]) =
        (wrongUsagePanicStatus m, none)) ∧
    (∀ s : String, ambients.find? (fun e => e.1 == s) = none → ∃ m,
      runPrimitiveInstruction ambients (some .getAmbient) (.symbol s) =
        (wrongUsagePanicStatus m, none)) ∧
    (∀ arg : Value, arg.int? = none → ∃ m,
      runPrimitiveInstruction ambients (some .createChannel) arg =
        (wrongUsagePanicStatus m, none)) ∧
    (∀ x y : Value, x.channelSendEnd? = none → ∃ m,
      runPrimitiveInstruction ambients (some .send) (.list [x, y]) =
        (wrongUsagePanicStatus m, none)) ∧
    (∀ arg : Value, arg.channelReceiveEnd? = none → ∃ m,
      runPrimitiveInstruction ambients (some .receive) arg =
        (wrongUsagePanicStatus m, none)) := by
  refine ⟨?_, ?_, ?_, ?_, ?_, ?_, ?_, ?_, ?_, ?_, ?_⟩
  · intro arg h
    exact ⟨"Primitive called with a non-list.", by simp [runPrimitiveInstruction, Bind.bind, Except.bind, splitKindAndArg, needed, h]⟩
  · intro items h
    exact ⟨"Primitive called with a list that doesn't contain 2 items.", by
      simp [runPrimitiveInstruction, Bind.bind, Except.bind, splitKindAndArg, needed, Value.list?,
        tuple2_eq_none items h]⟩
  · intro x y h
    exact ⟨"Primitive called, but the first argument is not a symbol.", by
      simp [runPrimitiveInstruction, Bind.bind, Except.bind, splitKindAndArg, needed, Value.list?, tuple2, h]⟩
  · intro s y h
    exact ⟨"Unknown primitive " ++ s ++ ".", by
      simp [runPrimitiveInstruction, Bind.bind, Except.bind, splitKindAndArg, needed, Value.list?, tuple2,
        Value.symbol?, h]⟩
  · intro arg h
    exact ⟨"add needs a list", by simp [runPrimitiveInstruction, Bind.bind, Except.bind, primitiveAdd, needed, h]⟩
  · intro arg h
    exact ⟨"get-item needs a list", by simp [runPrimitiveInstruction, Bind.bind, Except.bind, primitiveGetItem, needed, h]⟩
  · intro l idx h
    exact ⟨"get-item received list " ++ Value.display (.list l) ++ " and index " ++ toString idx ++ ", so the index is out of bounds", by
      simp [runPrimitiveInstruction, Bind.bind, Except.bind, primitiveGetItem, needed, Value.list?, tuple2,
        Value.int?, dif_pos h]⟩
  · intro s h
    exact ⟨"No ambient named " ++ s ++ " exists.", by
      simp [runPrimitiveInstruction, Bind.bind, Except.bind, primitiveGetAmbient, needed, Value.symbol?, h]⟩
  · intro arg h
    exact ⟨"CreateChannel needs an int.", by simp [runPrimitiveInstruction, Bind.bind, Except.bind, primitiveCreateChannel, needed, h]⟩
  · intro x y h
    exact ⟨"Send called with a list where the first item is not a ChannelSendEnd.", by
      simp [runPrimitiveInstruction, Bind.bind, Except.bind, primitiveSend, needed, Value.list?, tuple2, h]⟩
  · intro arg h
    exact ⟨"Receive called, but the argument is not a ChannelReceiveEnd.", by simp [runPrimitiveInstruction, Bind.bind, Except.bind, primitiveReceive, needed, h]⟩

/-- Witness for C7: calling the Add primitive on the non-list `Int 0`
panics with the wrong-usage value and pushes nothing. -/
theorem primitive_shape_violations_witness :
    ∃ m, runPrimitiveInstruction [] (some .add) (.int 0) =
      (wrongUsagePanicStatus m, none) :=
  (primitive_shape_violations []).2.2.2.2.1 (.int 0) rfl

/-! ## VM scheduler and channels (src/interpreter/src/vm/vm.rs) -/

/-- VM status (vm.rs `VmStatus`). -/
inductive VmStatus where
  | running
  | done (v : Value)
  | panicked (v : Value)
  | waitingForPendingOperations

/-- Internal channel (vm.rs `Channel`): a `u64` capacity (here `Nat`) and
a message buffer. -/
structure Channel where
  capacity : Nat
  messages : List Value

/-- Rust `Channel::send`: append iff the buffer holds fewer messages than
the capacity; report whether the message was accepted. -/
def Channel.send (c : Channel) (message : Value) : Bool × Channel :=
  if c.messages.length < c.capacity then
    (true, ⟨c.capacity, c.messages ++ [message]⟩)
  else
    (false, c)

/-- Rust `Channel::receive`: pop the oldest message, `none` when empty. -/
def Channel.receive (c : Channel) : Option Value × Channel :=
  match c.messages with
  | [] => (none, c)
  | msg :: rest => (some msg, ⟨c.capacity, rest⟩)

/-- A trace of channel operations, for the FIFO statement of C9. -/
inductive ChanOp where
  | send (m : Value)
  | receive

/-- Run a trace of sends and receives against a channel, collecting the
received messages and the accepted (successfully sent) messages in
order. -/
def Channel.runOps (c : Channel) : List ChanOp → Channel × List Value × List Value
  | [] => (c, [], [])
  | .send m :: rest =>
    let r := c.send m
    let t := r.2.runOps rest
    (t.1, t.2.1, if r.1 then m :: t.2.2 else t.2.2)
  | .receive :: rest =>
    let r := c.receive
    let t := r.2.runOps rest
    match r.1 with
    | some m => (t.1, m :: t.2.1, t.2.2)
    | none => t

theorem channel_runOps_invariant (ops : List ChanOp) :
    ∀ c : Channel, (c.runOps ops).2.1 ++ (c.runOps ops).1.messages =
      c.messages ++ (c.runOps ops).2.2 := by
  induction ops with
  | nil => intro c; simp [Channel.runOps]
  | cons op rest ih =>
    intro c
    cases op with
    | send m =>
      by_cases h : c.messages.length < c.capacity
      · have hsend : c.send m = (true, ⟨c.capacity, c.messages ++ [m]⟩) := by
          simp [Channel.send, h]
        have := ih ⟨c.capacity, c.messages ++ [m]⟩
        simp [Channel.runOps, hsend, this]
      · have hsend : c.send m = (false, c) := by
          simp [Channel.send, h]
        have := ih c
        simp [Channel.runOps, hsend, this]
    | receive =>
      cases hmsg : c.messages with
      | nil =>
        have hrecv : c.receive = (none, c) := by simp [Channel.receive, hmsg]
        have := ih c
        simp [Channel.runOps, hrecv, this, hmsg]
      | cons x rest2 =>
        have hrecv : c.receive = (some x, ⟨c.capacity, rest2⟩) := by
          simp [Channel.receive, hmsg]
        have := ih ⟨c.capacity, rest2⟩
        simp [Channel.runOps, hrecv, this, hmsg]

/-- C9: a send appends and succeeds exactly when the buffer holds fewer
messages than the capacity (and leaves the channel unchanged otherwise),
a receive removes and returns the oldest message (`none` on an empty
buffer), and consequently across any trace of operations the received
messages followed by the remaining buffer are exactly the initial buffer
followed by the accepted messages in send order — on an initially empty
channel the receives are a prefix of the accepted sends, each message
delivered once. -/
theorem channel_fifo (c : Channel) (m : Value) (ops : List ChanOp) :
    ((c.send m).1 = true ↔ c.messages.length < c.capacity) ∧
    ((c.send m).1 = true → (c.send m).2.messages = c.messages ++ [m]) ∧
    ((c.send m).1 = false → (c.send m).2 = c) ∧
    (c.messages = [] → c.receive = (none, c)) ∧
    (∀ x rest, c.messages = x :: rest → c.receive = (some x, ⟨c.capacity, rest⟩)) ∧
    ((c.runOps ops).2.1 ++ (c.runOps ops).1.messages =
      c.messages ++ (c.runOps ops).2.2) ∧
    (c.messages = [] →
      (c.runOps ops).2.2 = (c.runOps ops).2.1 ++ (c.runOps ops).1.messages) := by
  refine ⟨?_, ?_, ?_, ?_, ?_, channel_runOps_invariant ops c, ?_⟩
  · constructor
    · intro h
      by_contra hcap
      simp [Channel.send, hcap] at h
    · intro h
      simp [Channel.send, h]
  · intro h
    by_cases hcap : c.messages.length < c.capacity
    · simp [Channel.send, hcap]
    · simp [Channel.send, hcap] at h
  · intro h
    by_cases hcap : c.messages.length < c.capacity
    · simp [Channel.send, hcap] at h
    · simp [Channel.send, hcap]
  · intro h
    simp [Channel.receive, h]
  · intro x rest h
    simp [Channel.receive, h]
  · intro h
    have := channel_runOps_invariant ops c
    rw [h] at this
    simpa using this.symm

/-- Witness for C9: on a capacity-1 channel, sending then receiving one
message delivers it; the received messages are a prefix of the accepted
ones. -/
theorem channel_fifo_witness :
    ((Channel.mk 1 []).runOps [.send (.int 7), .receive]).2.2 =
      ((Channel.mk 1 []).runOps [.send (.int 7), .receive]).2.1 ++
        ((Channel.mk 1 []).runOps [.send (.int 7), .receive]).1.messages :=
  (channel_fifo ⟨1, []⟩ (.int 7) [.send (.int 7), .receive]).2.2.2.2.2.2 rfl

/-! ### Vm::run child selection (vm.rs:164-185)

The status of a child runnable (a fiber or a nested VM) is all the
selection inspects.  Priorities are `f64` in Rust; they are modelled as
rationals (the claims' instances use small exact values, where the float
arithmetic is exact too), and the sample `random::<f64>().rem_euclid(total)`
is the parameter `x`. -/

/-- A child's runnable, reduced to its status. -/
inductive RunnableStatus where
  | fiber (status : FiberStatus)
  | vm (status : VmStatus)

/-- A scheduler child (vm.rs `Child`). -/
structure Child where
  priority : ℚ
  runnable : RunnableStatus

/-- The filter `Vm::run` applies: a fiber child with status `Running`, or
a VM child with status `Running` (the Rust code compares with `==`;
pattern matching is equivalent). -/
def Child.isRunning (c : Child) : Bool :=
  match c.runnable with
  | .fiber .running => true
  | .fiber _ => false
  | .vm .running => true
  | .vm _ => false

/-- The `scan` accumulating priority prefix sums over the FILTERED
children. -/
def scanSums (acc : ℚ) : List Child → List (Child × ℚ)
  | [] => []
  | c :: rest => (c, acc + c.priority) :: scanSums (acc + c.priority) rest

/-- Rust `priority_sums` in `Vm::run`. -/
def prioritySums (children : List Child) : List (Child × ℚ) :=
  scanSums 0 (children.filter Child.isRunning)

/-- Outcome of the selection part of `Vm::run`. -/
inductive VmRunSelection where
  | waiting
  | runChild (child : Option Child)

/-- The selection logic of `Vm::run` (vm.rs:164-185): when no child is
running, the VM goes to `WaitingForPendingOperations`; otherwise the
index of the first prefix sum exceeding the sample — an index into the
FILTERED list — is used to index the UNFILTERED `children` list (the `none`
inside `runChild`, like a failed `position`, is an `unwrap` panic in
Rust). -/
def vmRunSelect (children : List Child) (x : ℚ) : VmRunSelection :=
  let sums := prioritySums children
  if sums.isEmpty then .waiting
  else
    match sums.findIdx? (fun p => decide (x < p.2)) with
    | some idx => .runChild (children.get? idx)
    | none => .runChild none

/-- C8 failing input: children `[done fiber (priority 1), running fiber
(priority 1)]` and any sample in `[0, 1)` (the runnable total is 1), here
`1/2`.  The filtered list contains only the running fiber, so the
computed index 0, applied to the unfiltered list, selects the DONE fiber
— `Vm::run` then calls `Fiber::run` on it, violating the assertion that
the fiber is `Running`. -/
theorem vmRunSelect_picks_non_running :
    vmRunSelect [⟨1, .fiber (.done (.symbol ""))⟩, ⟨1, .fiber .running⟩] (1 / 2) =
      .runChild (some ⟨1, .fiber (.done (.symbol ""))⟩) ∧
    Child.isRunning ⟨1, .fiber (.done (.symbol ""))⟩ = false ∧
    (0 : ℚ) ≤ 1 / 2 ∧
    ((prioritySums [⟨1, .fiber (.done (.symbol ""))⟩, ⟨1, .fiber .running⟩]).getLast?).map
      Prod.snd = some (0 + 1) ∧
    (1 / 2 : ℚ) < 0 + 1 := by
  refine ⟨?_, rfl, by norm_num, ?_, by norm_num⟩
  · show vmRunSelect _ _ = _
    unfold vmRunSelect prioritySums
    norm_num [Child.isRunning, List.filter, scanSums, List.findIdx?]
  · unfold prioritySums
    norm_num [Child.isRunning, List.filter, scanSums]

/-! ### Pending-operation matching (vm.rs:234-310)

The matching loop inspects only the channels map, the children's statuses
(for fibers) and external pending lists (for nested VMs), and mutates them
through `Channel::send`/`receive` and the `resolve_*` calls.  It is
modelled at that level: a fiber child is its status (`resolve_sending`
and `resolve_receiving` additionally push a value onto the resumed
fiber's stack, which the loop itself never reads), and a nested-VM child
is its external pending list (`Vm::resolve_send`/`resolve_receive` remove
the matched operation from it and recurse into the nested VM's own
children).  Rust's `==` on `Value` is structural except that map equality
ignores order; here maps compare as lists. -/

/-- A pending operation (vm.rs `VmOperation`). -/
inductive VmOperation where
  | send (channel : Nat) (message : Value)
  | receive (channel : Nat)

mutual
/-- Structural equality test on values (Rust `PartialEq`). -/
def Value.beq : Value → Value → Bool
  | .int a, .int b => a == b
  | .string a, .string b => a == b
  | .symbol a, .symbol b => a == b
  | .map a, .map b => beqPairs a b
  | .list a, .list b => beqValues a b
  | .closure ca ba, .closure cb bb => beqValues ca cb && ba == bb
  | .channelSendEnd a, .channelSendEnd b => a == b
  | .channelReceiveEnd a, .channelReceiveEnd b => a == b
  | _, _ => false
/-- Equality test on value lists. -/
def beqValues : List Value → List Value → Bool
  | [], [] => true
  | x :: xs, y :: ys => Value.beq x y && beqValues xs ys
  | _, _ => false
/-- Equality test on map entries. -/
def beqPairs : List (Value × Value) → List (Value × Value) → Bool
  | [], [] => true
  | x :: xs, y :: ys => Value.beq x.1 y.1 && Value.beq x.2 y.2 && beqPairs xs ys
  | _, _ => false
end

/-- A channel entry (vm.rs `ExternalOrInternalChannel`). -/
inductive ExternalOrInternalChannel where
  | external (id : Nat)
  | internal (c : Channel)

/-- `HashMap::get` on the channels map. -/
def lookupChannel (m : List (Nat × ExternalOrInternalChannel)) (id : Nat) :
    Option ExternalOrInternalChannel :=
  (m.find? (fun e => e.1 == id)).map (·.2)

/-- In-place update of a channel entry. -/
def updateChannel (m : List (Nat × ExternalOrInternalChannel)) (id : Nat)
    (v : ExternalOrInternalChannel) : List (Nat × ExternalOrInternalChannel) :=
  m.map (fun e => if e.1 == id then (id, v) else e)

/-- A child as the matching loop sees it. -/
inductive MatchChild where
  | fiber (status : FiberStatus)
  | vm (pending : List VmOperation)

/-- Does this pending operation match a send on `id` of `m`? -/
def VmOperation.matchesSend (id : Nat) (m : Value) : VmOperation → Bool
  | .send theId theM => theId == id && Value.beq theM m
  | .receive _ => false

/-- Does this pending operation match a receive on `id`? -/
def VmOperation.matchesReceive (id : Nat) : VmOperation → Bool
  | .receive theId => theId == id
  | .send _ _ => false

/-- Remove the first matching operation (the effect of
`Vm::resolve_send` on the child VM's external pending list). -/
def removeFirstOp (p : VmOperation → Bool) : List VmOperation → List VmOperation
  | [] => []
  | op :: rest => if p op then rest else op :: removeFirstOp p rest

/-- The `'find_send_consumer` scan (vm.rs:246-270): resolve the first
child that is a fiber with status `Sending(id, m)` (its status becomes
`Running`) or a nested VM with a matching pending send (the operation is
removed from it). -/
def resolveSendInChildren (id : Nat) (m : Value) : List MatchChild → List MatchChild
  | [] => []
  | .fiber (.sending theId theM) :: rest =>
    if theId == id && Value.beq theM m then
      .fiber .running :: rest
    else
      .fiber (.sending theId theM) :: resolveSendInChildren id m rest
  | .fiber other :: rest => .fiber other :: resolveSendInChildren id m rest
  | .vm pending :: rest =>
    if pending.any (VmOperation.matchesSend id m) then
      .vm (removeFirstOp (VmOperation.matchesSend id m) pending) :: rest
    else
      .vm pending :: resolveSendInChildren id m rest

/-- The `'find_receive_consumer` scan (vm.rs:279-301). -/
def resolveReceiveInChildren (id : Nat) (m : Value) : List MatchChild → List MatchChild
  | [] => []
  | .fiber (.receiving theId) :: rest =>
    if theId == id then
      .fiber .running :: rest
    else
      .fiber (.receiving theId) :: resolveReceiveInChildren id m rest
  | .fiber other :: rest => .fiber other :: resolveReceiveInChildren id m rest
  | .vm pending :: rest =>
    if pending.any (VmOperation.matchesReceive id) then
      .vm (removeFirstOp (VmOperation.matchesReceive id) pending) :: rest
    else
      .vm pending :: resolveReceiveInChildren id m rest

/-- One inner pass over `internal_pending_operations` (the inner `while`
of vm.rs:240-309): a send whose channel has room is buffered, its
consumer resolved and the operation removed; a receive whose channel has
a message pops it, resolves a consumer and is removed; otherwise the
operation stays (the index advances).  A missing channel or an external
one is the Rust `unwrap`/`to_internal` panic, `none` here. -/
def matchOpsPass (channels : List (Nat × ExternalOrInternalChannel))
    (children : List MatchChild) (processed : List VmOperation) :
    List VmOperation →
    Option (List (Nat × ExternalOrInternalChannel) × List MatchChild × List VmOperation)
  | [] => some (channels, children, processed.reverse)
  | op :: rest =>
    match op with
    | .send id m =>
      match lookupChannel channels id with
      | some (.internal ch) =>
        let r := ch.send m
        if r.1 then
          matchOpsPass (updateChannel channels id (.internal r.2))
            (resolveSendInChildren id m children) processed rest
        else
          matchOpsPass channels children (op :: processed) rest
      | _ => none
    | .receive id =>
      match lookupChannel channels id with
      | some (.internal ch) =>
        match ch.receive with
        | (some m, ch2) =>
          matchOpsPass (updateChannel channels id (.internal ch2))
            (resolveReceiveInChildren id m children) processed rest
        | (none, _) =>
          matchOpsPass channels children (op :: processed) rest
      | _ => none

/-- The outer fixed-point loop (vm.rs:236-310): run passes as long as the
pending list keeps shrinking. -/
def matchOpsLoop (channels : List (Nat × ExternalOrInternalChannel))
    (children : List MatchChild) (pending : List VmOperation) :
    Option (List (Nat × ExternalOrInternalChannel) × List MatchChild × List VmOperation) :=
  match matchOpsPass channels children [] pending with
  | none => none
  | some (chs, cs, pending2) =>
    if h : pending2.length < pending.length then
      matchOpsLoop chs cs pending2
    else
      some (chs, cs, pending2)
termination_by pending.length
decreasing_by exact h

theorem receive_capacity (c : Channel) : (c.receive).2.capacity = c.capacity := by
  cases h : c.messages <;> simp [Channel.receive, h]

theorem resolveSend_preserves_sending (id id2 : Nat) (m m2 : Value)
    (hne : id2 ≠ id) :
    ∀ (children : List MatchChild) (k : Nat),
    children[k]? = some (.fiber (.sending id m)) →
    (resolveSendInChildren id2 m2 children)[k]? =
      some (.fiber (.sending id m)) := by
  intro children
  induction children with
  | nil => intro k h; simp at h
  | cons c rest ih =>
    intro k h
    cases k with
    | zero =>
      simp only [List.getElem?_cons_zero, Option.some.injEq] at h
      subst h
      have hg : (id == id2) = false := by
        simp only [beq_eq_false_iff_ne, ne_eq]
        exact fun hh => hne hh.symm
      simp [resolveSendInChildren, hg]
    | succ k =>
      simp only [List.getElem?_cons_succ] at h
      cases c with
      | fiber st =>
        cases st with
        | sending theId theM =>
          by_cases hg : (theId == id2 && Value.beq theM m2) = true
          · simp [resolveSendInChildren, hg, h]
          · simp only [Bool.not_eq_true] at hg
            simp [resolveSendInChildren, hg, ih k h]
        | running => simp [resolveSendInChildren, ih k h]
        | done v => simp [resolveSendInChildren, ih k h]
        | panicked v => simp [resolveSendInChildren, ih k h]
        | creatingChannel n => simp [resolveSendInChildren, ih k h]
        | receiving theId => simp [resolveSendInChildren, ih k h]
      | vm pending =>
        by_cases hg : pending.any (VmOperation.matchesSend id2 m2) = true
        · simp [resolveSendInChildren, hg, h]
        · simp only [Bool.not_eq_true] at hg
          simp [resolveSendInChildren, hg, ih k h]

theorem resolveReceive_preserves_sending (id id2 : Nat) (m m2 : Value) :
    ∀ (children : List MatchChild) (k : Nat),
    children[k]? = some (.fiber (.sending id m)) →
    (resolveReceiveInChildren id2 m2 children)[k]? =
      some (.fiber (.sending id m)) := by
  intro children
  induction children with
  | nil => intro k h; simp at h
  | cons c rest ih =>
    intro k h
    cases k with
    | zero =>
      simp only [List.getElem?_cons_zero, Option.some.injEq] at h
      subst h
      simp [resolveReceiveInChildren]
    | succ k =>
      simp only [List.getElem?_cons_succ] at h
      cases c with
      | fiber st =>
        cases st with
        | receiving theId =>
          by_cases hg : (theId == id2) = true
          · simp [resolveReceiveInChildren, hg, h]
          · simp only [Bool.not_eq_true] at hg
            simp [resolveReceiveInChildren, hg, ih k h]
        | running => simp [resolveReceiveInChildren, ih k h]
        | done v => simp [resolveReceiveInChildren, ih k h]
        | panicked v => simp [resolveReceiveInChildren, ih k h]
        | creatingChannel n => simp [resolveReceiveInChildren, ih k h]
        | sending theId theM => simp [resolveReceiveInChildren, ih k h]
      | vm pending =>
        by_cases hg : pending.any (VmOperation.matchesReceive id2) = true
        · simp [resolveReceiveInChildren, hg, h]
        · simp only [Bool.not_eq_true] at hg
          simp [resolveReceiveInChildren, hg, ih k h]

theorem lookupChannel_update_ne (mch : List (Nat × ExternalOrInternalChannel))
    (id id2 : Nat) (v : ExternalOrInternalChannel) (hne : id2 ≠ id) :
    lookupChannel (updateChannel mch id2 v) id = lookupChannel mch id := by
  induction mch with
  | nil => rfl
  | cons e rest ih =>
    by_cases he : (e.1 == id2) = true
    · have h2 : (id2 == id) = false := by simpa using hne
      have h3 : (e.1 == id) = false := by
        simp only [beq_iff_eq] at he
        simpa [he] using hne
      simp [updateChannel, lookupChannel, List.find?, he, h2, h3] at ih ⊢
      simpa [lookupChannel, updateChannel] using ih
    · simp only [Bool.not_eq_true] at he
      by_cases h3 : (e.1 == id) = true
      · simp [updateChannel, lookupChannel, List.find?, he, h3]
      · simp only [Bool.not_eq_true] at h3
        simp [updateChannel, lookupChannel, List.find?, he, h3] at ih ⊢
        simpa [lookupChannel, updateChannel] using ih

theorem lookupChannel_update_self (id : Nat) (v : ExternalOrInternalChannel) :
    ∀ (mch : List (Nat × ExternalOrInternalChannel)) (ch0 : ExternalOrInternalChannel),
    lookupChannel mch id = some ch0 →
    lookupChannel (updateChannel mch id v) id = some v := by
  intro mch
  induction mch with
  | nil => intro ch0 hx; simp [lookupChannel] at hx
  | cons e rest ih =>
    intro ch0 hx
    by_cases he : (e.1 == id) = true
    · simp [updateChannel, lookupChannel, List.find?, he]
    · simp only [Bool.not_eq_true] at he
      simp only [lookupChannel, List.find?, he] at hx
      have := ih ch0 (by simpa [lookupChannel] using hx)
      simpa [lookupChannel, updateChannel, List.find?, he] using this

/-- Invariant of one matching pass: a capacity-0 internal channel stays a
capacity-0 internal channel, and a fiber sending on it keeps its status. -/
theorem matchOpsPass_preserves (id k : Nat) (m : Value) :
    ∀ (ops : List VmOperation)
      (channels : List (Nat × ExternalOrInternalChannel))
      (children : List MatchChild) (processed : List VmOperation)
      (chs1 : List (Nat × ExternalOrInternalChannel))
      (cs1 : List MatchChild) (pend1 : List VmOperation),
    matchOpsPass channels children processed ops = some (chs1, cs1, pend1) →
    (∃ ch : Channel,
      lookupChannel channels id = some (.internal ch) ∧ ch.capacity = 0) →
    children[k]? = some (.fiber (.sending id m)) →
    (∃ ch : Channel,
      lookupChannel chs1 id = some (.internal ch) ∧ ch.capacity = 0) ∧
    cs1[k]? = some (.fiber (.sending id m)) := by
  intro ops
  induction ops with
  | nil =>
    intro channels children processed chs1 cs1 pend1 hpass hch hfib
    simp only [matchOpsPass, Option.some.injEq, Prod.mk.injEq] at hpass
    obtain ⟨h1, h2, h3⟩ := hpass
    subst h1; subst h2
    exact ⟨hch, hfib⟩
  | cons op rest ih =>
    intro channels children processed chs1 cs1 pend1 hpass hch hfib
    obtain ⟨ch0, hch0, hcap0⟩ := hch
    cases op with
    | send id2 m2 =>
      simp only [matchOpsPass] at hpass
      split at hpass
      · rename_i ch2 heq
        split at hpass
        · rename_i hsend
          by_cases hidi : id2 = id
          · subst id2
            rw [heq] at hch0
            injection hch0 with hch0
            injection hch0 with hch0
            subst hch0
            simp [Channel.send, hcap0] at hsend
          · refine ih _ _ _ _ _ _ hpass ⟨ch0, ?_, hcap0⟩
              (resolveSend_preserves_sending id id2 m m2 hidi children k hfib)
            rw [lookupChannel_update_ne channels id id2 _ hidi]
            exact hch0
        · exact ih _ _ _ _ _ _ hpass ⟨ch0, hch0, hcap0⟩ hfib
      · exact Option.noConfusion hpass
    | receive id2 =>
      simp only [matchOpsPass] at hpass
      split at hpass
      · rename_i ch2 heq
        split at hpass
        · rename_i m2 ch3 hrecv
          by_cases hidi : id2 = id
          · subst id2
            rw [heq] at hch0
            injection hch0 with hch0
            injection hch0 with hch0
            subst hch0
            have h3 : ch3.capacity = 0 := by
              have hr := receive_capacity ch2
              rw [hrecv] at hr
              rw [← hcap0]
              exact hr
            refine ih _ _ _ _ _ _ hpass ⟨ch3, ?_, h3⟩
              (resolveReceive_preserves_sending id id m m2 children k hfib)
            exact lookupChannel_update_self id (.internal ch3) channels
              (.internal ch2) heq
          · refine ih _ _ _ _ _ _ hpass ⟨ch0, ?_, hcap0⟩
              (resolveReceive_preserves_sending id id2 m m2 children k hfib)
            rw [lookupChannel_update_ne channels id id2 _ hidi]
            exact hch0
        · exact ih _ _ _ _ _ _ hpass ⟨ch0, hch0, hcap0⟩ hfib
      · exact Option.noConfusion hpass

/-- Invariant of the whole matching loop (`matchOpsLoop`). -/
theorem matchOpsLoop_preserves (id k : Nat) (m : Value)
    (pending : List VmOperation)
    (channels : List (Nat × ExternalOrInternalChannel))
    (children : List MatchChild)
    (chs1 : List (Nat × ExternalOrInternalChannel))
    (cs1 : List MatchChild) (pend1 : List VmOperation)
    (hloop : matchOpsLoop channels children pending = some (chs1, cs1, pend1))
    (hch : ∃ ch : Channel,
      lookupChannel channels id = some (.internal ch) ∧ ch.capacity = 0)
    (hfib : children[k]? = some (.fiber (.sending id m))) :
    (∃ ch : Channel,
      lookupChannel chs1 id = some (.internal ch) ∧ ch.capacity = 0) ∧
    cs1[k]? = some (.fiber (.sending id m)) := by
  rw [matchOpsLoop] at hloop
  split at hloop
  · exact Option.noConfusion hloop
  · rename_i chs2 cs2 pending2 hpass
    have hinv := matchOpsPass_preserves id k m pending channels children []
      chs2 cs2 pending2 hpass ⟨hch.choose, hch.choose_spec⟩ hfib
    split at hloop
    · rename_i hlt
      exact matchOpsLoop_preserves id k m pending2 chs2 cs2 chs1 cs1 pend1
        hloop hinv.1 hinv.2
    · simp only [Option.some.injEq, Prod.mk.injEq] at hloop
      obtain ⟨h1, h2, h3⟩ := hloop
      subst h1; subst h2
      exact hinv
termination_by pending.length
decreasing_by assumption

/-- C10: `Channel::send` on a capacity-0 channel returns `false` and leaves
the channel unchanged; consequently a fiber whose status is `Sending` on a
capacity-0 internal channel is never resolved by the VM's pending-operation
matching loop — after the loop finishes, the fiber's status is still the
same `Sending`, even when a matching `Receive` operation was pending. -/
theorem capacity_zero_send_never_resolved
    (ch : Channel) (m : Value) (hcap : ch.capacity = 0)
    (channels : List (Nat × ExternalOrInternalChannel))
    (children : List MatchChild) (pending : List VmOperation)
    (id k : Nat)
    (hch : lookupChannel channels id = some (.internal ch))
    (hfib : children[k]? = some (.fiber (.sending id m)))
    (chs1 : List (Nat × ExternalOrInternalChannel))
    (cs1 : List MatchChild) (pend1 : List VmOperation)
    (hloop : matchOpsLoop channels children pending = some (chs1, cs1, pend1)) :
    ch.send m = (false, ch) ∧
    cs1[k]? = some (.fiber (.sending id m)) := by
  constructor
  · simp [Channel.send, hcap]
  · exact (matchOpsLoop_preserves id k m pending channels children
      chs1 cs1 pend1 hloop ⟨ch, hch, hcap⟩ hfib).2

/-- Witness for C10: a VM with a capacity-0 channel 0, a fiber sending on
it, a fiber receiving on it, and both operations pending; the loop leaves
the sender's status untouched. -/
theorem capacity_zero_send_never_resolved_witness :
    Channel.send ⟨0, []⟩ (.int 1) = (false, ⟨0, []⟩) ∧
    [MatchChild.fiber (.sending 0 (.int 1)),
     MatchChild.fiber (.receiving 0)][0]? =
      some (.fiber (.sending 0 (.int 1))) :=
  capacity_zero_send_never_resolved ⟨0, []⟩ (.int 1) rfl
    [(0, .internal ⟨0, []⟩)]
    [.fiber (.sending 0 (.int 1)), .fiber (.receiving 0)]
    [.send 0 (.int 1), .receive 0] 0 0 rfl rfl
    [(0, .internal ⟨0, []⟩)]
    [.fiber (.sending 0 (.int 1)), .fiber (.receiving 0)]
    [.send 0 (.int 1), .receive 0]
    (by rw [matchOpsLoop]; rfl)

end Mehl
